/-
Verification of the MAG configuration panel (mag_panel.py) and the companion
generic admin grid (pg_admin_gui.py).

Modeling conventions:
* Python strings are modeled as lists of characters (`Str := List Char`);
  `str.strip()` is modeled over the ASCII whitespace characters.
* Python float arithmetic is modeled exactly over ℚ; numeric string parsing
  (`float(...)`, `int(...)`) is modeled on the decimal-literal fragment
  (optional sign, digits, optional fraction).  Exponent/inf/nan forms and
  digit-grouping underscores never occur in the data these claims range over.
* Qt table rows are modeled as a list of records; the item-data user roles
  (`USERROLE_LIST_PRICE`, `USERROLE_BASE_TRIMM`) are the `listData` and
  `baseTrimm` fields, and a rendered price cell is modeled by the `Option ℚ`
  value passed to `fmt_money` (`none` renders as the empty string).
-/
import Mathlib

namespace MagSpec

/-- Python strings modeled as character lists. -/
abbrev Str := List Char

/-- Whitespace recognized by `str.strip()` (ASCII fragment): space, tab,
newline, carriage return, vertical tab, form feed. -/
def isSpaceChar (c : Char) : Bool :=
  c.toNat = 32 || c.toNat = 9 || c.toNat = 10 || c.toNat = 13 ||
    c.toNat = 11 || c.toNat = 12

/-- Model of Python `s.strip()`: drop whitespace at both ends. -/
def pyStrip (s : Str) : Str :=
  ((s.dropWhile isSpaceChar).reverse.dropWhile isSpaceChar).reverse

/-- Model of PostgreSQL `trim(...)`, which by default strips only spaces. -/
def isSqlSpace (c : Char) : Bool := c = ' '

/-- PostgreSQL `trim(x)` (space characters at both ends). -/
def sqlTrim (s : Str) : Str :=
  ((s.dropWhile isSqlSpace).reverse.dropWhile isSqlSpace).reverse

/-- Model of `s.replace(",", ".")`. -/
def commaToDot (s : Str) : Str :=
  s.map (fun c => if c = ',' then '.' else c)

/-- ASCII decimal digit test, i.e. `'0' ≤ c ≤ '9'` (the `\d` / `\D` classes
of the regexes used). -/
def isDigitC (c : Char) : Bool := 48 ≤ c.toNat && c.toNat ≤ 57

/-- Model of `digits_only` (mag_panel.py line 62): `re.sub(r"\D", "", s)`. -/
def digitsOnly (s : Str) : Str := s.filter isDigitC

/-- Numeric value of a digit character. -/
def charVal (c : Char) : ℕ := c.toNat - 48

/-- Character for a digit value `d < 10`. -/
def digitChar (d : ℕ) : Char := Char.ofNat (d + 48)

/-- Value of a digit string read most-significant first. -/
def natValOf (ds : Str) : ℕ := ds.foldl (fun n c => 10 * n + charVal c) 0

/-- Fuel-driven decimal printer (fuel `n + 1` always suffices for `n`). -/
def toDecAux : ℕ → ℕ → Str
  | 0, _ => []
  | fuel + 1, n =>
    if n < 10 then [digitChar n]
    else toDecAux fuel (n / 10) ++ [digitChar (n % 10)]

/-- Model of Python `str(n)` for a natural number. -/
def toDecChars (n : ℕ) : Str := toDecAux (n + 1) n

/-- Splits a string matching `^\d+(\.\d+)?$` into integer and fractional digit
parts (the fractional part is `[]` when there is no dot).  Returns `none` when
the regex does not match. -/
def splitIntFrac (s : Str) : Option (Str × Str) :=
  let ds := s.takeWhile isDigitC
  match s.dropWhile isDigitC with
  | [] => if ds.isEmpty then none else some (ds, [])
  | c :: fs =>
      if c = '.' then
        if ds.isEmpty then none
        else if fs.isEmpty then none
        else if fs.all isDigitC then some (ds, fs) else none
      else none

/-! ### Binary64 rounding (`float(...)` inside `norm_ref`) -/

/-- Exact value of the decimal literal with integer digits `ds` and
fractional digits `fs`. -/
def decValue (ds fs : Str) : ℚ :=
  (natValOf ds : ℚ) + (natValOf fs : ℚ) / (10 : ℚ) ^ fs.length

/-- Fuel-based binary logarithm on naturals. -/
def natLog2Aux : ℕ → ℕ → ℕ
  | 0, _ => 0
  | f + 1, n => if 2 ≤ n then natLog2Aux f (n / 2) + 1 else 0

/-- `⌊log2 n⌋` for `n ≥ 1` (and 0 at 0). -/
def natLog2 (n : ℕ) : ℕ := natLog2Aux n n

/-- `2 ^ e` over ℚ, computed through natural-number powers. -/
def qpow2 (e : ℤ) : ℚ :=
  if 0 ≤ e then ((2 ^ e.toNat : ℕ) : ℚ) else (((2 ^ (-e).toNat : ℕ) : ℚ))⁻¹

/-- Floor of the base-2 logarithm of a positive rational. -/
def ratLog2 (q : ℚ) : ℤ :=
  let k : ℤ := (natLog2 q.num.toNat : ℤ) - (natLog2 q.den : ℤ)
  if qpow2 k ≤ q then k else k - 1

/-- Round a rational to the nearest integer, ties to even. -/
def roundHalfEven (x : ℚ) : ℤ :=
  if Int.fract x < 1 / 2 then ⌊x⌋
  else if 1 / 2 < Int.fract x then ⌊x⌋ + 1
  else if ⌊x⌋ % 2 = 0 then ⌊x⌋ else ⌊x⌋ + 1

/-- Round a nonnegative rational to the nearest IEEE binary64 value (round
to nearest, ties to even, gradual underflow below `2 ^ (-1022)`); `none` is
overflow to infinity.  The overflow test `2 ^ 1024 * v.den ≤ v.num.toNat`
states `2 ^ 1024 ≤ v` over naturals. -/
def nearestDouble (q : ℚ) : Option ℚ :=
  if q = 0 then some 0
  else
    let e : ℤ := max (ratLog2 q - 52) (-1074)
    let m : ℤ := roundHalfEven (q / qpow2 e)
    let v : ℚ := (m : ℚ) * qpow2 e
    if 2 ^ 1024 * v.den ≤ v.num.toNat then none else some v

theorem natLog2Aux_spec : ∀ fuel n, n ≠ 0 → n ≤ fuel →
    2 ^ natLog2Aux fuel n ≤ n ∧ n < 2 ^ (natLog2Aux fuel n + 1) := by
  intro fuel
  induction fuel with
  | zero => intro n h0 hle; omega
  | succ f ih =>
    intro n h0 hle
    by_cases h2 : 2 ≤ n
    · have hhalf : n / 2 ≠ 0 := by omega
      have hfuel : n / 2 ≤ f := by omega
      obtain ⟨ih1, ih2⟩ := ih (n / 2) hhalf hfuel
      have hstep : natLog2Aux (f + 1) n = natLog2Aux f (n / 2) + 1 := by
        simp [natLog2Aux, if_pos h2]
      rw [hstep]
      set L := natLog2Aux f (n / 2) with hL
      constructor
      · have : 2 ^ (L + 1) = 2 * 2 ^ L := by ring
        omega
      · have : 2 ^ (L + 1 + 1) = 2 * 2 ^ (L + 1) := by ring
        omega
    · have hn1 : n = 1 := by omega
      have hstep : natLog2Aux (f + 1) n = 0 := by
        simp [natLog2Aux, if_neg h2]
      rw [hstep, hn1]
      omega

theorem natLog2_spec {n : ℕ} (h0 : n ≠ 0) :
    2 ^ natLog2 n ≤ n ∧ n < 2 ^ (natLog2 n + 1) :=
  natLog2Aux_spec n n h0 (le_refl n)

theorem qpow2_eq (e : ℤ) : qpow2 e = (2 : ℚ) ^ e := by
  unfold qpow2
  by_cases he : 0 ≤ e
  · rw [if_pos he]
    push_cast
    rw [← zpow_natCast (2:ℚ) e.toNat, Int.toNat_of_nonneg he]
  · rw [if_neg he]
    push_cast
    rw [← zpow_natCast (2:ℚ) (-e).toNat, Int.toNat_of_nonneg (by omega), ← zpow_neg]
    congr 1
    omega

theorem ratLog2_spec {q : ℚ} (hq : 0 < q) :
    (2 : ℚ) ^ ratLog2 q ≤ q ∧ q < (2 : ℚ) ^ (ratLog2 q + 1) := by
  have hnum : 0 < q.num := Rat.num_pos.mpr hq
  have ha0 : q.num.toNat ≠ 0 := by omega
  have hb0 : q.den ≠ 0 := Nat.pos_iff_ne_zero.mp q.pos
  have hq_eq : q = ((q.num.toNat : ℕ) : ℚ) / ((q.den : ℕ) : ℚ) := by
    rw [show ((q.num.toNat : ℕ) : ℚ) = ((q.num : ℤ) : ℚ) from by
      exact_mod_cast Int.toNat_of_nonneg (le_of_lt hnum)]
    exact (Rat.num_div_den q).symm
  set a := q.num.toNat with hadef
  set b := q.den with hbdef
  set α := natLog2 a with hα
  set β := natLog2 b with hβ
  obtain ⟨hA1, hA2⟩ := natLog2_spec ha0
  obtain ⟨hB1, hB2⟩ := natLog2_spec hb0
  have hbposQ : (0:ℚ) < (b : ℚ) := by exact_mod_cast Nat.pos_of_ne_zero hb0
  have haq1 : (2:ℚ) ^ ((α:ℤ)) ≤ (a:ℚ) := by
    rw [zpow_natCast]; exact_mod_cast hA1
  have haq2 : (a:ℚ) < (2:ℚ) ^ ((α:ℤ) + 1) := by
    rw [show (α:ℤ) + 1 = ((α + 1 : ℕ) : ℤ) by push_cast; ring, zpow_natCast]
    exact_mod_cast hA2
  have hbq1 : (2:ℚ) ^ ((β:ℤ)) ≤ (b:ℚ) := by
    rw [zpow_natCast]; exact_mod_cast hB1
  have hbq2 : (b:ℚ) < (2:ℚ) ^ ((β:ℤ) + 1) := by
    rw [show (β:ℤ) + 1 = ((β + 1 : ℕ) : ℤ) by push_cast; ring, zpow_natCast]
    exact_mod_cast hB2
  set k : ℤ := (α:ℤ) - (β:ℤ) with hk
  have hupper : q < (2:ℚ) ^ (k + 1) := by
    rw [hq_eq, div_lt_iff₀ hbposQ]
    calc (a:ℚ) < (2:ℚ) ^ ((α:ℤ) + 1) := haq2
      _ = (2:ℚ) ^ (k + 1) * (2:ℚ) ^ ((β:ℤ)) := by
          rw [← zpow_add₀ two_ne_zero]; congr 1; omega
      _ ≤ (2:ℚ) ^ (k + 1) * (b:ℚ) := by
          apply mul_le_mul_of_nonneg_left hbq1 (le_of_lt (zpow_pos (by norm_num) _))
  have hlower : (2:ℚ) ^ (k - 1) < q := by
    rw [hq_eq, lt_div_iff₀ hbposQ]
    calc (2:ℚ) ^ (k - 1) * (b:ℚ) < (2:ℚ) ^ (k - 1) * (2:ℚ) ^ ((β:ℤ) + 1) := by
          apply mul_lt_mul_of_pos_left hbq2 (zpow_pos (by norm_num) _)
      _ = (2:ℚ) ^ ((α:ℤ)) := by
          rw [← zpow_add₀ two_ne_zero]; congr 1; omega
      _ ≤ (a:ℚ) := haq1
  show (2 : ℚ) ^ (if qpow2 k ≤ q then k else k - 1) ≤ q ∧
      q < (2 : ℚ) ^ ((if qpow2 k ≤ q then k else k - 1) + 1)
  rw [qpow2_eq]
  by_cases hcase : (2:ℚ) ^ k ≤ q
  · rw [if_pos hcase]
    exact ⟨hcase, hupper⟩
  · rw [if_neg hcase]
    refine ⟨le_of_lt hlower, ?_⟩
    rw [show k - 1 + 1 = k from by omega]
    exact lt_of_not_le hcase

theorem roundHalfEven_intCast (n : ℤ) : roundHalfEven ((n : ℤ) : ℚ) = n := by
  unfold roundHalfEven
  rw [Int.fract_intCast]
  rw [if_pos (by norm_num), Int.floor_intCast]

theorem roundHalfEven_nonneg {x : ℚ} (hx : 0 ≤ x) : 0 ≤ roundHalfEven x := by
  have h0 : 0 ≤ ⌊x⌋ := Int.floor_nonneg.mpr hx
  unfold roundHalfEven
  split_ifs <;> omega

theorem roundHalfEven_le_floor_add_one (x : ℚ) : roundHalfEven x ≤ ⌊x⌋ + 1 := by
  unfold roundHalfEven
  split_ifs <;> omega

theorem nearestDouble_zero : nearestDouble 0 = some 0 := by
  simp [nearestDouble]

theorem nearestDouble_of_ne {q : ℚ} (hq : q ≠ 0) :
    nearestDouble q =
      if 2 ^ 1024 *
          (((roundHalfEven (q / (2:ℚ) ^ (max (ratLog2 q - 52) (-1074)))) : ℚ) *
            (2:ℚ) ^ (max (ratLog2 q - 52) (-1074))).den ≤
          (((roundHalfEven (q / (2:ℚ) ^ (max (ratLog2 q - 52) (-1074)))) : ℚ) *
            (2:ℚ) ^ (max (ratLog2 q - 52) (-1074))).num.toNat then none
      else some (((roundHalfEven (q / (2:ℚ) ^ (max (ratLog2 q - 52) (-1074)))) : ℚ) *
            (2:ℚ) ^ (max (ratLog2 q - 52) (-1074))) := by
  rw [nearestDouble, if_neg hq]
  simp only [qpow2_eq]

theorem nearestDouble_nonneg {q v : ℚ} (hq : 0 ≤ q)
    (h : nearestDouble q = some v) : 0 ≤ v := by
  by_cases hq0 : q = 0
  · subst hq0
    rw [nearestDouble_zero] at h
    have hv : (0:ℚ) = v := by simpa using h
    rw [← hv]
  · rw [nearestDouble_of_ne hq0] at h
    set e : ℤ := max (ratLog2 q - 52) (-1074) with he
    set m : ℤ := roundHalfEven (q / (2:ℚ) ^ e) with hm
    by_cases hov : 2 ^ 1024 * ((m : ℚ) * (2:ℚ) ^ e).den ≤ ((m : ℚ) * (2:ℚ) ^ e).num.toNat
    · rw [if_pos hov] at h; exact absurd h (by simp)
    · rw [if_neg hov] at h
      have hv : (m : ℚ) * (2:ℚ) ^ e = v := by simpa using h
      have hm0 : 0 ≤ m := roundHalfEven_nonneg (div_nonneg hq (le_of_lt (zpow_pos (by norm_num) e)))
      rw [← hv]
      have : (0:ℚ) ≤ (m:ℚ) := by exact_mod_cast hm0
      exact mul_nonneg this (le_of_lt (zpow_pos (by norm_num) e))

theorem nearestDouble_fixed {q v : ℚ} (hq : 0 ≤ q)
    (h : nearestDouble q = some v) : nearestDouble v = some v := by
  by_cases hq0 : q = 0
  · subst hq0
    rw [nearestDouble_zero] at h
    have hv : (0:ℚ) = v := by simpa using h
    rw [← hv]; exact nearestDouble_zero
  · have hqpos : 0 < q := lt_of_le_of_ne hq (Ne.symm hq0)
    rw [nearestDouble_of_ne hq0] at h
    set e : ℤ := max (ratLog2 q - 52) (-1074) with he
    set m : ℤ := roundHalfEven (q / (2:ℚ) ^ e) with hm
    by_cases hov : 2 ^ 1024 * ((m : ℚ) * (2:ℚ) ^ e).den ≤ ((m : ℚ) * (2:ℚ) ^ e).num.toNat
    · rw [if_pos hov] at h; exact absurd h (by simp)
    · rw [if_neg hov] at h
      have hveq : (m : ℚ) * (2:ℚ) ^ e = v := by simpa using h
      have hepos : (0:ℚ) < (2:ℚ) ^ e := zpow_pos (by norm_num) e
      have hm0 : 0 ≤ m := roundHalfEven_nonneg (div_nonneg hq (le_of_lt hepos))
      by_cases hmz : m = 0
      · have hv0 : v = 0 := by rw [← hveq, hmz]; simp
        rw [hv0]; exact nearestDouble_zero
      · have hm1 : 1 ≤ m := by omega
        have hvpos : 0 < v := by
          rw [← hveq]
          exact mul_pos (by exact_mod_cast hm1) hepos
        have hspec := ratLog2_spec hqpos
        have hele : ratLog2 q - 52 ≤ e := le_max_left _ _
        have hel : (-1074 : ℤ) ≤ e := le_max_right _ _
        have hqlt : q < (2:ℚ) ^ (e + 53) := by
          apply lt_of_lt_of_le hspec.2
          exact (zpow_le_zpow_iff_right₀ rfl).mpr (by omega)
        have hxlt : q / (2:ℚ) ^ e < (2:ℚ) ^ ((53:ℕ) : ℤ) := by
          rw [div_lt_iff₀ hepos, ← zpow_add₀ two_ne_zero]
          exact lt_of_lt_of_le hqlt ((zpow_le_zpow_iff_right₀ rfl).mpr (by omega))
        have hfloor : ⌊q / (2:ℚ) ^ e⌋ < 2 ^ 53 := by
          rw [Int.floor_lt]
          rw [zpow_natCast] at hxlt
          exact_mod_cast hxlt
        have hm53 : m ≤ 2 ^ 53 := by
          have := roundHalfEven_le_floor_add_one (q / (2:ℚ) ^ e)
          omega
        have hvle : v ≤ (2:ℚ) ^ (e + 53) := by
          rw [← hveq]
          calc (m : ℚ) * (2:ℚ) ^ e ≤ ((2:ℚ) ^ ((53:ℕ):ℤ)) * (2:ℚ) ^ e := by
                apply mul_le_mul_of_nonneg_right _ (le_of_lt hepos)
                rw [zpow_natCast]
                exact_mod_cast hm53
            _ = (2:ℚ) ^ (e + 53) := by rw [← zpow_add₀ two_ne_zero]; congr 1; omega
        have hvne : v ≠ 0 := ne_of_gt hvpos
        rw [nearestDouble_of_ne hvne]
        set e' : ℤ := max (ratLog2 v - 52) (-1074) with he'
        have hspecv := ratLog2_spec hvpos
        have hlogv : ratLog2 v ≤ e + 53 := by
          by_contra hcon
          push_neg at hcon
          have h1 : (2:ℚ) ^ (e + 53 + 1) ≤ (2:ℚ) ^ (ratLog2 v) :=
            (zpow_le_zpow_iff_right₀ rfl).mpr (by omega)
          have h2 : (2:ℚ) ^ (e + 53) < (2:ℚ) ^ (e + 53 + 1) :=
            (zpow_lt_zpow_iff_right₀ rfl).mpr (by omega)
          have := lt_of_le_of_lt hvle (lt_of_lt_of_le h2 (le_trans h1 hspecv.1))
          exact lt_irrefl v this
        have he'le : e' ≤ e + 1 := by
          rw [he']; apply max_le <;> omega
        obtain ⟨j, hj⟩ : ∃ j : ℤ, v / (2:ℚ) ^ e' = (j : ℚ) := by
          by_cases hee : e' ≤ e
          · refine ⟨m * 2 ^ (e - e').toNat, ?_⟩
            rw [← hveq, mul_div_assoc, ← zpow_sub₀ two_ne_zero]
            push_cast
            rw [← zpow_natCast (2:ℚ) (e - e').toNat, Int.toNat_of_nonneg (by omega)]
          · have hee1 : e' = e + 1 := by omega
            have harm : ratLog2 v - 52 = e + 1 := by
              rcases max_choice (ratLog2 v - 52) (-1074) with hmx | hmx <;> omega
            have hlow : (2:ℚ) ^ (e + 53) ≤ v := by
              rw [show e + 53 = ratLog2 v from by omega]
              exact hspecv.1
            have hveq2 : v = (2:ℚ) ^ (e + 53) := le_antisymm hvle hlow
            refine ⟨2 ^ 52, ?_⟩
            rw [hveq2, hee1, ← zpow_sub₀ two_ne_zero]
            rw [show e + 53 - (e + 1) = ((52:ℕ) : ℤ) from by omega, zpow_natCast]
            push_cast
            ring
        have h2e'ne : ((2:ℚ) ^ e') ≠ 0 := ne_of_gt (zpow_pos (by norm_num) e')
        have hjval : (j : ℚ) * (2:ℚ) ^ e' = v := by
          rw [← hj, div_mul_cancel₀ _ h2e'ne]
        rw [hj, roundHalfEven_intCast, hjval]
        rw [if_neg (hveq ▸ hov)]

/-- Model of `norm_ref` (mag_panel.py lines 49-60).  The two regexes of the
source are expressed through `splitIntFrac`: matching `^(\d+)\.0$` is
exactly `splitIntFrac s = some (ds, ['0'])`; otherwise, for a string
matching `^\d+(\.\d+)?$`, `f = float(s)` is the binary64 rounding of the
exact decimal value (`nearestDouble`; `none` is an infinite `f`, whose
`is_integer()` is false), `f.is_integer()` holds exactly when `f` has
denominator 1, and `str(int(f))` prints the numerator of the nonnegative
integral `f`. -/
def normRef (x : Str) : Str :=
  match splitIntFrac (commaToDot (pyStrip x)) with
  | some (ds, fs) =>
      if fs = ['0'] then ds
      else
        match nearestDouble (decValue ds fs) with
        | some f =>
            if f.den = 1 then toDecChars f.num.toNat else commaToDot (pyStrip x)
        | none => commaToDot (pyStrip x)
  | none => commaToDot (pyStrip x)

/-- Model of `norm_ref` on a nullable argument (`norm_ref(None) = ""`). -/
def normRefOpt (x : Option Str) : Str :=
  match x with
  | none => []
  | some s => normRef s

/-! ### Character and digit-string lemmas -/

theorem char_toNat_inj {a b : Char} (h : a.toNat = b.toNat) : a = b :=
  calc a = Char.ofNat a.toNat := (Char.ofNat_toNat a).symm
    _ = Char.ofNat b.toNat := by rw [h]
    _ = b := Char.ofNat_toNat b

theorem charVal_lt_ten {c : Char} (h : isDigitC c = true) : charVal c < 10 := by
  simp only [isDigitC, Bool.and_eq_true, decide_eq_true_eq] at h
  simp only [charVal]; omega

theorem digitChar_charVal {c : Char} (h : isDigitC c = true) :
    digitChar (charVal c) = c := by
  simp only [isDigitC, Bool.and_eq_true, decide_eq_true_eq] at h
  have hv : charVal c + 48 = c.toNat := by simp only [charVal]; omega
  rw [digitChar, hv, Char.ofNat_toNat]

theorem charVal_digitChar {d : ℕ} (h : d < 10) : charVal (digitChar d) = d := by
  interval_cases d <;> decide

theorem isDigitC_digitChar {d : ℕ} (h : d < 10) : isDigitC (digitChar d) = true := by
  interval_cases d <;> decide

theorem charVal_pos {c : Char} (hd : isDigitC c = true) (h0 : c ≠ '0') :
    1 ≤ charVal c := by
  simp only [isDigitC, Bool.and_eq_true, decide_eq_true_eq] at hd
  have : c.toNat ≠ 48 := fun h => h0 (char_toNat_inj (h.trans (by decide)))
  simp only [charVal]; omega

theorem isSpaceChar_of_digit {c : Char} (h : isDigitC c = true) :
    isSpaceChar c = false := by
  simp only [isDigitC, Bool.and_eq_true, decide_eq_true_eq] at h
  simp only [isSpaceChar, Bool.or_eq_false_iff, decide_eq_false_iff_not]
  omega

theorem commaSwap_of_digit {c : Char} (h : isDigitC c = true) :
    (if c = ',' then '.' else c) = c := by
  rw [if_neg]; rintro rfl; exact absurd h (by decide)

theorem commaToDot_of_digits {l : Str} (h : ∀ c ∈ l, isDigitC c = true) :
    commaToDot l = l := by
  induction l with
  | nil => rfl
  | cons a t ih =>
    simp only [commaToDot, List.map_cons]
    rw [commaSwap_of_digit (h a (List.mem_cons_self a t))]
    exact congrArg _ (ih fun c hc => h c (List.mem_cons_of_mem a hc))

theorem dropWhile_eq_self_of_all {α : Type} (p : α → Bool) (l : List α)
    (h : ∀ c ∈ l, p c = false) : l.dropWhile p = l := by
  cases l with
  | nil => rfl
  | cons a t => simp [List.dropWhile, h a (List.mem_cons_self a t)]

theorem pyStrip_of_all_nonspace {l : Str} (h : ∀ c ∈ l, isSpaceChar c = false) :
    pyStrip l = l := by
  unfold pyStrip
  rw [dropWhile_eq_self_of_all _ _ h,
    dropWhile_eq_self_of_all _ _ (fun c hc => h c (List.mem_reverse.mp hc)),
    List.reverse_reverse]

theorem head?_dropWhile_false {α : Type} (p : α → Bool) (l : List α) {c : α}
    (h : (l.dropWhile p).head? = some c) : p c = false := by
  induction l with
  | nil => simp [List.dropWhile] at h
  | cons a t ih =>
    cases hpa : p a with
    | true => simp only [List.dropWhile, hpa] at h; exact ih h
    | false =>
      simp only [List.dropWhile, hpa, List.head?, Option.some.injEq] at h
      rw [← h]; exact hpa

theorem pyStrip_getLast?_nonspace (l : Str) {c : Char}
    (h : (pyStrip l).getLast? = some c) : isSpaceChar c = false := by
  unfold pyStrip at h
  rw [List.getLast?_reverse] at h
  exact head?_dropWhile_false _ _ h

theorem pyStrip_head?_nonspace (l : Str) {c : Char}
    (h : (pyStrip l).head? = some c) : isSpaceChar c = false := by
  unfold pyStrip at h
  rw [List.head?_reverse] at h
  set A := (l.dropWhile isSpaceChar).reverse with hA
  have hBne : A.dropWhile isSpaceChar ≠ [] := by
    intro hnil; rw [hnil] at h; simp at h
  obtain ⟨t, ht⟩ := @List.dropWhile_suffix Char A isSpaceChar
  have hlast : (A.dropWhile isSpaceChar).getLast? = A.getLast? := by
    have happ := List.getLast?_append_of_ne_nil t hBne
    rw [ht] at happ; exact happ.symm
  rw [hlast, hA, List.getLast?_reverse] at h
  exact head?_dropWhile_false _ _ h

theorem pyStrip_eq_self_of_ends {l : Str}
    (h1 : ∀ c, l.head? = some c → isSpaceChar c = false)
    (h2 : ∀ c, l.getLast? = some c → isSpaceChar c = false) : pyStrip l = l := by
  unfold pyStrip
  have d1 : l.dropWhile isSpaceChar = l := by
    cases l with
    | nil => rfl
    | cons a t => simp [List.dropWhile, h1 a rfl]
  rw [d1]
  have d2 : l.reverse.dropWhile isSpaceChar = l.reverse := by
    cases hr : l.reverse with
    | nil => rfl
    | cons a t =>
      have : l.getLast? = some a := by rw [← List.head?_reverse, hr]; rfl
      simp [List.dropWhile, h2 a this]
  rw [d2, List.reverse_reverse]

theorem pyStrip_pyStrip (l : Str) : pyStrip (pyStrip l) = pyStrip l :=
  pyStrip_eq_self_of_ends (fun _ h => pyStrip_head?_nonspace l h)
    (fun _ h => pyStrip_getLast?_nonspace l h)

theorem isSpaceChar_commaSwap (c : Char) :
    isSpaceChar (if c = ',' then '.' else c) = isSpaceChar c := by
  by_cases hc : c = ','
  · subst hc; decide
  · rw [if_neg hc]

theorem pyStrip_commaToDot (l : Str) :
    pyStrip (commaToDot l) = commaToDot (pyStrip l) := by
  have hpf : (isSpaceChar ∘ fun c => if c = ',' then '.' else c) = isSpaceChar :=
    funext isSpaceChar_commaSwap
  unfold pyStrip commaToDot
  rw [List.dropWhile_map, hpf, ← List.map_reverse, List.dropWhile_map, hpf,
    ← List.map_reverse]

theorem commaToDot_commaToDot (l : Str) :
    commaToDot (commaToDot l) = commaToDot l := by
  unfold commaToDot
  rw [List.map_map]
  apply List.map_congr_left
  intro c _
  show (if (if c = ',' then '.' else c) = ',' then '.' else
      (if c = ',' then '.' else c)) = if c = ',' then '.' else c
  by_cases hc : c = ','
  · subst hc; decide
  · simp only [if_neg hc]

/-- The string `commaToDot (pyStrip x)` computed inside `norm_ref` is a fixed
point of the same preprocessing. -/
theorem normRef_arg_fixed (x : Str) :
    commaToDot (pyStrip (commaToDot (pyStrip x))) = commaToDot (pyStrip x) := by
  rw [pyStrip_commaToDot, pyStrip_pyStrip, commaToDot_commaToDot]

theorem preprocess_of_digits {l : Str} (h : ∀ c ∈ l, isDigitC c = true) :
    commaToDot (pyStrip l) = l := by
  rw [pyStrip_of_all_nonspace (fun c hc => isSpaceChar_of_digit (h c hc)),
    commaToDot_of_digits h]

/-! ### Decimal printing and its round trips -/

theorem natValOf_append_last (l : Str) (c : Char) :
    natValOf (l ++ [c]) = 10 * natValOf l + charVal c := by
  unfold natValOf
  rw [List.foldl_append]
  rfl

theorem foldl_val_ge (l : Str) :
    ∀ acc : ℕ, acc ≤ l.foldl (fun n c => 10 * n + charVal c) acc := by
  induction l with
  | nil => intro acc; exact le_refl acc
  | cons a t ih =>
    intro acc
    refine le_trans ?_ (ih (10 * acc + charVal a))
    omega

theorem natValOf_head_pos {a : Char} {t : Str} (hd : isDigitC a = true)
    (h0 : a ≠ '0') : 1 ≤ natValOf (a :: t) := by
  have h1 : 1 ≤ charVal a := charVal_pos hd h0
  have h2 := foldl_val_ge t (charVal a)
  unfold natValOf
  simp only [List.foldl_cons, Nat.mul_zero, Nat.zero_add]
  omega

theorem toDecAux_fuel {n : ℕ} : ∀ {f1 f2 : ℕ}, n < f1 → n < f2 →
    toDecAux f1 n = toDecAux f2 n := by
  induction n using Nat.strong_induction_on with
  | _ n ih =>
    intro f1 f2 h1 h2
    match f1, f2 with
    | 0, _ => omega
    | _ + 1, 0 => omega
    | g1 + 1, g2 + 1 =>
      simp only [toDecAux]
      by_cases hn : n < 10
      · simp [hn]
      · have hdiv : n / 10 < n := Nat.div_lt_self (by omega) (by omega)
        simp only [hn, if_false]
        congr 1
        exact ih (n / 10) hdiv (show n / 10 < g1 by omega) (show n / 10 < g2 by omega)

theorem toDecChars_lt10 {n : ℕ} (h : n < 10) : toDecChars n = [digitChar n] := by
  simp [toDecChars, toDecAux, h]

theorem toDecChars_step {n : ℕ} (h : 10 ≤ n) :
    toDecChars n = toDecChars (n / 10) ++ [digitChar (n % 10)] := by
  have hdiv : n / 10 < n := Nat.div_lt_self (by omega) (by omega)
  unfold toDecChars
  conv_lhs => rw [toDecAux]
  rw [if_neg (by omega)]
  rw [@toDecAux_fuel (n / 10) n (n / 10 + 1) (by omega) (by omega)]

theorem natValOf_toDecChars (n : ℕ) : natValOf (toDecChars n) = n := by
  induction n using Nat.strong_induction_on with
  | _ n ih =>
    by_cases h : n < 10
    · rw [toDecChars_lt10 h]
      show 10 * 0 + charVal (digitChar n) = n
      rw [charVal_digitChar h]; omega
    · have hdiv : n / 10 < n := Nat.div_lt_self (by omega) (by omega)
      rw [toDecChars_step (by omega), natValOf_append_last, ih (n / 10) hdiv,
        charVal_digitChar (Nat.mod_lt n (by omega))]
      omega

theorem toDecAux_all_digit : ∀ (f n : ℕ), n < f →
    ∀ c ∈ toDecAux f n, isDigitC c = true := by
  intro f
  induction f with
  | zero => intro n h; omega
  | succ f ih =>
    intro n h c hc
    simp only [toDecAux] at hc
    by_cases hn : n < 10
    · simp only [hn, if_true, List.mem_singleton] at hc
      subst hc; exact isDigitC_digitChar hn
    · have hdiv : n / 10 < n := Nat.div_lt_self (by omega) (by omega)
      simp only [hn, if_false, List.mem_append, List.mem_singleton] at hc
      rcases hc with hc | hc
      · exact ih (n / 10) (by omega) c hc
      · subst hc; exact isDigitC_digitChar (Nat.mod_lt n (by omega))

theorem toDecChars_all_digit (n : ℕ) : ∀ c ∈ toDecChars n, isDigitC c = true :=
  toDecAux_all_digit (n + 1) n (by omega)

theorem toDecChars_ne_nil (n : ℕ) : toDecChars n ≠ [] := by
  by_cases h : n < 10
  · rw [toDecChars_lt10 h]; simp
  · rw [toDecChars_step (by omega)]; simp

/-! ### Inversion lemmas for `splitIntFrac` -/

theorem splitIntFrac_inv {s ds fs : Str} (h : splitIntFrac s = some (ds, fs)) :
    ds ≠ [] ∧ ∀ c ∈ ds, isDigitC c = true := by
  simp only [splitIntFrac] at h
  suffices hds : ds = s.takeWhile isDigitC ∧ (s.takeWhile isDigitC).isEmpty = false by
    obtain ⟨rfl, hne⟩ := hds
    exact ⟨by simpa using hne, fun c hc => List.mem_takeWhile_imp hc⟩
  cases hdrop : s.dropWhile isDigitC with
  | nil =>
    rw [hdrop] at h
    by_cases hemp : (s.takeWhile isDigitC).isEmpty
    · simp [hemp] at h
    · rw [Bool.not_eq_true] at hemp
      simp [hemp] at h
      exact ⟨h.1.symm, hemp⟩
  | cons a rest =>
    rw [hdrop] at h
    by_cases ha : a = '.'
    · subst ha
      by_cases hemp : (s.takeWhile isDigitC).isEmpty
      · simp [hemp] at h
      · rw [Bool.not_eq_true] at hemp
        by_cases hfe : rest.isEmpty
        · simp [hemp, hfe] at h
        · rw [Bool.not_eq_true] at hfe
          by_cases hall : rest.all isDigitC
          · simp [hemp, hfe, hall] at h
            exact ⟨h.1.symm, hemp⟩
          · simp [hemp, hfe, hall] at h
    · simp [ha] at h

theorem splitIntFrac_digits {l : Str} (hne : l ≠ [])
    (h : ∀ c ∈ l, isDigitC c = true) : splitIntFrac l = some (l, []) := by
  have ht : l.takeWhile isDigitC = l := List.takeWhile_eq_self_iff.mpr h
  have hd : l.dropWhile isDigitC = [] := List.dropWhile_eq_nil_iff.mpr h
  simp [splitIntFrac, ht, hd, hne]

/-- Canonical digit strings (no leading zero, or the single digit string)
are reproduced exactly by printing their value. -/
theorem toDecChars_natValOf {ds : Str} (hne : ds ≠ [])
    (hdig : ∀ c ∈ ds, isDigitC c = true)
    (hcanon : ds.length = 1 ∨ ds.head? ≠ some '0') :
    toDecChars (natValOf ds) = ds := by
  induction ds using List.reverseRecOn with
  | nil => exact absurd rfl hne
  | append_singleton l c ih =>
    have hc : isDigitC c = true := hdig c (by simp)
    have hc10 : charVal c < 10 := charVal_lt_ten hc
    cases l with
    | nil =>
      have hval : natValOf [c] = charVal c := by
        show 10 * 0 + charVal c = charVal c
        omega
      simp only [List.nil_append]
      rw [hval, toDecChars_lt10 hc10, digitChar_charVal hc]
    | cons a t =>
      have hha : isDigitC a = true := hdig a (by simp)
      have hh0 : a ≠ '0' := by
        rcases hcanon with hlen | hhd
        · simp at hlen
        · intro hrfl; subst hrfl; exact hhd (by simp)
      have hpos : 1 ≤ natValOf (a :: t) := natValOf_head_pos hha hh0
      have hval : natValOf ((a :: t) ++ [c]) =
          10 * natValOf (a :: t) + charVal c := natValOf_append_last _ _
      rw [hval]
      have h10 : 10 ≤ 10 * natValOf (a :: t) + charVal c := by omega
      rw [toDecChars_step h10]
      have hdivq : (10 * natValOf (a :: t) + charVal c) / 10 = natValOf (a :: t) := by
        omega
      have hmodq : (10 * natValOf (a :: t) + charVal c) % 10 = charVal c := by
        omega
      rw [hdivq, hmodq, digitChar_charVal hc,
        ih (by simp) (fun x hx => hdig x (List.mem_append_left _ hx))
          (Or.inr (by simp [hh0]))]

/-! ### Claim C9: idempotence of `norm_ref` -/

/-- `decValue` of a pure digit string (no fractional digits). -/
theorem decValue_nil (l : Str) : decValue l [] = ((natValOf l : ℕ) : ℚ) := by
  simp [decValue, natValOf]

theorem decValue_nonneg (ds fs : Str) : 0 ≤ decValue ds fs := by
  unfold decValue
  positivity

/-- A nonnegative rational with denominator 1 is the cast of its numerator. -/
theorem rat_eq_natCast_of_den_one {f : ℚ} (hden : f.den = 1) (hpos : 0 ≤ f) :
    ((f.num.toNat : ℕ) : ℚ) = f := by
  have h1 : (f.num : ℚ) = f := by
    have h2 := Rat.num_div_den f
    rw [hden] at h2
    simpa using h2
  rw [show ((f.num.toNat : ℕ) : ℚ) = ((f.num : ℤ) : ℚ) from by
    exact_mod_cast Int.toNat_of_nonneg (Rat.num_nonneg.mpr hpos)]
  exact h1

/-- Inputs on which `norm_ref` is idempotent: everything except the strings
whose stripped, comma-normalized form matches `^(\d+)\.0$` and whose integer
digit group either keeps a leading zero (in a multi-digit group) or has a
value that binary64 conversion neither represents exactly nor overflows (the
first regex branch returns the digit group verbatim; a second application
then reprints it through `str(int(float(·)))`). -/
def c9Safe (x : Str) : Bool :=
  match splitIntFrac (commaToDot (pyStrip x)) with
  | some (ds, fs) =>
      if fs = ['0'] then
        (decide (ds.length = 1) || !(decide (ds.head? = some '0'))) &&
          (decide (nearestDouble ((natValOf ds : ℕ) : ℚ) = none) ||
            decide (nearestDouble ((natValOf ds : ℕ) : ℚ) =
              some ((natValOf ds : ℕ) : ℚ)))
      else true
  | none => true

set_option maxRecDepth 4000 in
/-- C9 (counterexample): `norm_ref` is not idempotent on `"007.0"`:
`norm_ref("007.0") = "007"` (first regex branch keeps the leading zeros) but
`norm_ref("007") = "7"`. -/
theorem c9_counterexample :
    normRef (normRef "007.0".data) ≠ normRef "007.0".data := by
  with_unfolding_all decide

/-- C9 (amended): `norm_ref(None) = ""`, and `norm_ref` is idempotent on
every input except those whose stripped comma-normalized form matches
`^(\d+)\.0$` with a digit group that keeps a leading zero or is not an
exact (or overflowing) binary64 value. -/
theorem c9_amended :
    normRefOpt none = [] ∧
      ∀ x : Str, c9Safe x = true → normRef (normRef x) = normRef x := by
  refine ⟨rfl, fun x hx => ?_⟩
  cases hsp : splitIntFrac (commaToDot (pyStrip x)) with
  | none =>
    have h1 : normRef x = commaToDot (pyStrip x) := by simp only [normRef, hsp]
    rw [h1]
    simp only [normRef, normRef_arg_fixed x, hsp]
  | some p =>
    obtain ⟨ds, fs⟩ := p
    obtain ⟨hdne, hdig⟩ := splitIntFrac_inv hsp
    by_cases hf0 : fs = ['0']
    · have h1 : normRef x = ds := by
        simp only [normRef, hsp]
        rw [if_pos hf0]
      simp only [c9Safe, hsp] at hx
      rw [if_pos hf0, Bool.and_eq_true, Bool.or_eq_true, Bool.or_eq_true] at hx
      obtain ⟨hcanon, hnd⟩ := hx
      have hcanon' : ds.length = 1 ∨ ds.head? ≠ some '0' := by
        rcases hcanon with h | h
        · exact Or.inl (of_decide_eq_true h)
        · right; simpa using h
      have hpre : commaToDot (pyStrip ds) = ds := preprocess_of_digits hdig
      have hsd : splitIntFrac ds = some (ds, []) := splitIntFrac_digits hdne hdig
      rw [h1]
      simp only [normRef, hpre, hsd]
      rw [if_neg (by simp : ¬([] : Str) = ['0'])]
      rw [decValue_nil]
      rcases hnd with hnone | hsome
      · rw [of_decide_eq_true hnone]
      · rw [of_decide_eq_true hsome]
        simp only [if_pos (Rat.den_natCast _)]
        rw [Rat.num_natCast, Int.toNat_natCast]
        exact toDecChars_natValOf hdne hdig hcanon'
    · cases hnd : nearestDouble (decValue ds fs) with
      | none =>
        have h1 : normRef x = commaToDot (pyStrip x) := by
          simp only [normRef, hsp]
          rw [if_neg hf0]
          simp only [hnd]
        rw [h1]
        simp only [normRef, normRef_arg_fixed x, hsp]
        rw [if_neg hf0]
        simp only [hnd]
      | some f =>
        have hfnn : 0 ≤ f := nearestDouble_nonneg (decValue_nonneg ds fs) hnd
        by_cases hint : f.den = 1
        · have h1 : normRef x = toDecChars f.num.toNat := by
            simp only [normRef, hsp]
            rw [if_neg hf0]
            simp only [hnd]
            rw [if_pos hint]
          rw [h1]
          have hone := toDecChars_ne_nil f.num.toNat
          have hodig := toDecChars_all_digit f.num.toNat
          have hpre := preprocess_of_digits hodig
          have hsd := splitIntFrac_digits hone hodig
          simp only [normRef, hpre, hsd]
          rw [if_neg (by simp : ¬([] : Str) = ['0'])]
          rw [decValue_nil, natValOf_toDecChars]
          rw [rat_eq_natCast_of_den_one hint hfnn]
          rw [nearestDouble_fixed (decValue_nonneg ds fs) hnd]
          show (if f.den = 1 then toDecChars f.num.toNat
              else toDecChars f.num.toNat) = toDecChars f.num.toNat
          rw [if_pos hint]
        · have h1 : normRef x = commaToDot (pyStrip x) := by
            simp only [normRef, hsp]
            rw [if_neg hf0]
            simp only [hnd]
            rw [if_neg hint]
          rw [h1]
          simp only [normRef, normRef_arg_fixed x, hsp]
          rw [if_neg hf0]
          simp only [hnd]
          rw [if_neg hint]

set_option maxRecDepth 4000 in
/-- C9 witness: the amended idempotence theorem applied at `"5.0"`. -/
theorem c9_amended_witness :
    normRef (normRef "5.0".data) = normRef "5.0".data :=
  c9_amended.2 "5.0".data (by with_unfolding_all decide)

set_option maxRecDepth 4000 in
/-- The binary64 rounding inside `str(int(float(·)))` is observable: the
value of the 16-digit group `"9999999999999999"` ties between two doubles
and rounds to the even one, so the second regex branch prints
`"10000000000000000"`. -/
theorem normRef_float_rounding :
    normRef "9999999999999999".data = "10000000000000000".data := by
  have hpre : commaToDot (pyStrip "9999999999999999".data) =
      "9999999999999999".data := by decide
  have hsd : splitIntFrac "9999999999999999".data =
      some ("9999999999999999".data, []) := by decide
  simp only [normRef, hpre, hsd]
  rw [if_neg (by simp : ¬([] : Str) = ['0'])]
  rw [decValue_nil]
  have hval : ((natValOf "9999999999999999".data : ℕ) : ℚ) =
      (9999999999999999 : ℚ) := by
    norm_num [show natValOf "9999999999999999".data = 9999999999999999 from by decide]
  rw [hval]
  have h9 : (9999999999999999 : ℚ) ≠ 0 := by norm_num
  rw [nearestDouble_of_ne h9]
  have h1 : max (ratLog2 (9999999999999999 : ℚ) - 52) (-1074) = 1 := by
    with_unfolding_all decide
  rw [h1]
  have h2 : roundHalfEven ((9999999999999999 : ℚ) / (2:ℚ) ^ (1:ℤ)) =
      5000000000000000 := by
    have hq : ((9999999999999999 : ℚ) / (2:ℚ) ^ (1:ℤ)) =
        (9999999999999999 : ℚ) / 2 := by norm_num
    rw [hq]
    with_unfolding_all decide
  rw [h2]
  have h3 : ((5000000000000000 : ℤ) : ℚ) * (2:ℚ) ^ (1:ℤ) =
      (10000000000000000 : ℚ) := by
    push_cast
    norm_num
  rw [h3]
  rw [if_neg (by with_unfolding_all decide)]
  with_unfolding_all decide

/-! ### Python numeric parsing (decimal-literal fragment, exact over ℚ) -/

/-- Unsigned decimal literal accepted by Python `float` (forms `d+`,
`d+.d*`, `.d+`). -/
def parseUnsignedFloat (l : Str) : Option ℚ :=
  let ds := l.takeWhile isDigitC
  match l.dropWhile isDigitC with
  | [] => if ds.isEmpty then none else some ((natValOf ds : ℚ))
  | c :: fs =>
      if c = '.' ∧ fs.all isDigitC ∧ ¬(ds.isEmpty ∧ fs.isEmpty) then
        some (decValue ds fs)
      else none

/-- Model of Python `float(s)`: strip whitespace, optional sign, decimal
literal.  Exponent, infinity/nan and underscore forms are outside the
fragment the repository's data uses. -/
def pyFloat (s : Str) : Option ℚ :=
  match pyStrip s with
  | '+' :: r => parseUnsignedFloat r
  | '-' :: r => (parseUnsignedFloat r).map (fun q => -q)
  | r => parseUnsignedFloat r

/-- Model of `parse_money` (mag_panel.py lines 65-71): `None` stays `None`,
otherwise strip, turn commas into dots and call `float`, with parse failure
mapped to `None`. -/
def parseMoney (s : Option Str) : Option ℚ :=
  s.bind fun t => pyFloat (commaToDot (pyStrip t))

/-- Truncation toward zero, the effect of Python `int(...)` on a float. -/
def ratTrunc (q : ℚ) : ℤ := if 0 ≤ q then ⌊q⌋ else ⌈q⌉

/-- Quantity-cell parsing of `_recalc_totals` (mag_panel.py line 737):
`int(float((text or "0").replace(",", ".")))`, `0` on failure (an empty
cell goes through `"0"` and also yields 0). -/
def qtyParse (txt : Str) : ℤ :=
  match pyFloat (commaToDot txt) with
  | some q => ratTrunc q
  | none => 0

/-- Model of Python `int(s)` on strings: optional whitespace, optional sign,
digits. -/
def pyIntParse (s : Str) : Option ℤ :=
  match pyStrip s with
  | '+' :: r => if r ≠ [] ∧ r.all isDigitC then some ((natValOf r : ℤ)) else none
  | '-' :: r => if r ≠ [] ∧ r.all isDigitC then some (-(natValOf r : ℤ)) else none
  | r => if r ≠ [] ∧ r.all isDigitC then some ((natValOf r : ℤ)) else none

/-! ### The reference table (`EVE TIN ALL`) and the part-number lookup -/

/-- A row of the master reference table as it reaches the panel: the key may
be NULL; description NULLs are already coalesced to `""` by `str(... or "")`
in both the SQL path and the preload path. -/
structure TinRecord where
  ref : Option Str
  desc : Str
  pack : Option Str
  priceList : Option Str
  priceTrimm : Option Str
deriving DecidableEq

/-- The `(description, pack, list price, trimm price)` result tuple of the
lookup paths. -/
abbrev RefTuple := Str × Option Str × Option Str × Option Str

/-- The result `("", None, None, None)` of a failed lookup. -/
def emptyTuple : RefTuple := ([], none, none, none)

/-- Result tuple of a record (strings are already stringified upstream). -/
def recTuple (rec : TinRecord) : RefTuple :=
  (rec.desc, rec.pack, rec.priceList, rec.priceTrimm)

/-- Value of a reference key under the SQL `::numeric` cast, on the decimal
fragment the stored keys use: an unsigned decimal numeral (`d+`, `d+.`,
`d+.d+`) in optional whitespace casts to its value; on anything else the
cast raises (exponent and sign forms are outside the fragment modeled). -/
def unsignedNumVal (l : Str) : Option ℚ :=
  let t := pyStrip l
  let ds := t.takeWhile isDigitC
  match t.dropWhile isDigitC with
  | [] => if ds.isEmpty then none else some ((natValOf ds : ℚ))
  | c :: fs =>
      if c = '.' ∧ fs.all isDigitC ∧ ¬ds.isEmpty then some (decValue ds fs)
      else none

/-- The regex guard `ref::text ~ '^\s*\d+(\.\d+)?\s*'` of the numeric
clause: being unanchored on the right, it holds exactly when the key starts
with optional whitespace followed by at least one digit. -/
def sqlNumGuard (l : Str) : Bool :=
  match l.dropWhile isSpaceChar with
  | c :: _ => isDigitC c
  | [] => false

/-- Outcome of evaluating the WHERE clause on one row: a match, no match, or
an abort of the whole query when the guarded `::numeric` cast raises. -/
inductive RowCheck
  | matched
  | unmatched
  | aborted
deriving DecidableEq

/-- The WHERE clause of `_fetch_tin_by_pn` (mag_panel.py lines 596-611) on a
single row, its OR/AND branches evaluated left to right: exact match on
`trim(ref::text)`, digit-stripped match via
`regexp_replace(ref::text, '\D', '', 'g')`, then — only when a numeric part
number was parsed and the key passes the regex guard — the `::numeric`
comparison, which raises and aborts the query when the cast fails (a key
such as `"1abc"`).  A NULL key satisfies no clause and never reaches the
cast. -/
def sqlRowCheck (pnText pnDigits : Str) (pnNum : Option ℚ) (rec : TinRecord) :
    RowCheck :=
  match rec.ref with
  | none => .unmatched
  | some r =>
      if sqlTrim r == pnText then .matched
      else if digitsOnly r == pnDigits then .matched
      else
        match pnNum with
        | none => .unmatched
        | some z =>
            if sqlNumGuard r then
              match unsignedNumVal r with
              | some w => if w = z then .matched else .unmatched
              | none => .aborted
            else .unmatched

/-- Row-order scan of the query: `some (some rec)` is the `LIMIT 1` row,
`some none` a completed scan without a match, `none` an aborted query. -/
def sqlScan (pnText pnDigits : Str) (pnNum : Option ℚ) :
    List TinRecord → Option (Option TinRecord)
  | [] => some none
  | rec :: rest =>
      match sqlRowCheck pnText pnDigits pnNum rec with
      | .matched => some (some rec)
      | .unmatched => sqlScan pnText pnDigits pnNum rest
      | .aborted => none

/-- Model of `_fetch_tin_by_pn` (mag_panel.py lines 568-628) against the
reference table, with the engine connected and the key column detected.  The
`LIMIT 1` row of the un-ordered SQL query is modeled as the first matching
row in table order; an aborted query raises, and the handler's `except`
returns the empty tuple. -/
def fetchTinByPn (refs : List TinRecord) (pn : Str) : RefTuple :=
  if pn = [] then emptyTuple
  else
    match sqlScan (commaToDot (pyStrip pn))
        (digitsOnly (commaToDot (pyStrip pn)))
        (pyFloat (commaToDot (pyStrip pn))) refs with
    | some (some rec) => recTuple rec
    | some none => emptyTuple
    | none => emptyTuple

/-- The key set stored for one reference row when `_preload_all_db`
(mag_panel.py lines 459-471) builds `tin_index`. -/
def tinKeys (r : Str) : List Str := [normRef r, pyStrip r, digitsOnly r]

/-- Dictionary lookup in `tin_index`: the preload loop assigns
`tin_index[k] = tup` in table order, so a key maps to the tuple of the last
table row carrying it. -/
def tinIndexGet (refs : List TinRecord) (k : Str) : Option RefTuple :=
  (refs.reverse.find? fun rec =>
    match rec.ref with
    | some r => (tinKeys r).contains k
    | none => false).map recTuple

/-- The combined reference lookup performed by `_add_row_by_pn`
(mag_panel.py lines 644-652): the SQL lookup, then — when the description
came back empty — the cache fallback
`tin_index.get(pn) or tin_index.get(norm_ref(pn)) or
tin_index.get(digits_only(pn))` (result tuples are always truthy).  An empty
part number returns before any lookup. -/
def addRowLookup (refs : List TinRecord) (pn : Str) : RefTuple :=
  if pn = [] then emptyTuple
  else
    let t := fetchTinByPn refs pn
    if t.1 = [] then
      match (tinIndexGet refs pn).orElse (fun _ =>
          (tinIndexGet refs (normRef pn)).orElse (fun _ =>
            tinIndexGet refs (digitsOnly pn))) with
      | some hit => hit
      | none => t
    else t

/-! ### Claim C3: characterization of the part-number lookup -/

set_option maxRecDepth 4000 in
/-- A guarded key that fails the numeric cast aborts the query and discards
later SQL matches: with stored keys `"1abc"` and `"1.5"`, looking up
`"1.50"` yields the empty tuple although `"1.5"` equals it numerically (the
index fallback keys `"1.50"`, `norm_ref("1.50") = "1.50"` and `"150"` also
miss every stored key). -/
theorem sql_abort_discards_matches :
    addRowLookup
      [⟨some "1abc".data, "A".data, none, none, none⟩,
       ⟨some "1.5".data, "B".data, none, none, none⟩] "1.50".data =
      emptyTuple := by
  with_unfolding_all decide

/-! ### The quote line table and the panel state -/

/-- One row of the summary table.  The six text cells are strings; the two
price cells are modeled by the `Option ℚ` value handed to `fmt_money`
(`none` renders as `""`), and `listData` / `baseTrimm` are the item-data
user roles `USERROLE_LIST_PRICE` / `USERROLE_BASE_TRIMM` (always set, with
`0.0` standing for a missing price, as in `_add_row_by_pn`). -/
structure QuoteLine where
  no : Str
  pn : Str
  desc : Str
  qty : Str
  ctrl : Str
  pack : Str
  listDisp : Option ℚ
  trimmDisp : Option ℚ
  listData : ℚ
  baseTrimm : ℚ

/-- The mutable panel state: the table rows, the three pricing spin boxes,
and the two total labels (modeled by the values they render). -/
structure AppState where
  rows : List QuoteLine
  discount : ℚ
  logistics : ℚ
  kurs : ℚ
  shownTotal : ℚ
  shownMargin : Option ℚ

/-- Model of `_recalc_totals` (mag_panel.py lines 728-759): one fold over
the rows accumulating `list_total` and `trm_total` exactly as the loop
does, then the discount and currency conversion; the margin label shows a
value only when `trm_total_conv > 0` and a dash otherwise (`none`). -/
def recalcTotals (rows : List QuoteLine) (discount L K : ℚ) : ℚ × Option ℚ :=
  let disc := 1 - discount / 100
  let p := rows.foldl
    (fun (acc : ℚ × ℚ) r =>
      (acc.1 + (qtyParse r.qty : ℚ) * r.listData,
        acc.2 + (qtyParse r.qty : ℚ) * r.baseTrimm * L))
    (0, 0)
  let totalAfterDiscConv := p.1 * disc * K
  let trmTotalConv := p.2 * K
  (totalAfterDiscConv,
    if 0 < trmTotalConv then
      some ((totalAfterDiscConv - trmTotalConv) / trmTotalConv)
    else none)

/-- Refresh the two labels from the current state. -/
def recalcState (s : AppState) : AppState :=
  let t := recalcTotals s.rows s.discount s.logistics s.kurs
  { s with shownTotal := t.1, shownMargin := t.2 }

/-- Model of `_renumber` (mag_panel.py lines 679-681): rewrite the `№`
column to `str(r+1)` in table order. -/
def renumAux : ℕ → List QuoteLine → List QuoteLine
  | _, [] => []
  | n, r :: rest => { r with no := toDecChars (n + 1) } :: renumAux (n + 1) rest

def renumberRows (l : List QuoteLine) : List QuoteLine := renumAux 0 l

/-- Net effect of `delete_selected`'s reverse-sorted `removeRow` loop
(mag_panel.py lines 683-688): exactly the selected positions disappear. -/
def removeIndices (l : List QuoteLine) (sel : List ℕ) : List QuoteLine :=
  (l.enum.filter (fun p => !(sel.contains p.1))).map Prod.snd

/-- Net effect of `_move_row_with_cat_down` (mag_panel.py lines 695-707):
the `insertRow (r+2)` / `takeItem` / `removeRow r` sequence swaps the first
row at position `r ≤ n-2` with a non-blank part number with its successor;
the loop never considers the last row. -/
def moveFirst : List QuoteLine → List QuoteLine
  | [] => []
  | [a] => [a]
  | a :: b :: rest =>
      if pyStrip a.pn ≠ [] then b :: a :: rest else a :: moveFirst (b :: rest)

/-- The row built by `_add_row_by_pn` (mag_panel.py lines 644-677) at table
position `idx` with the logistics spin at `L`. -/
def mkLine (refs : List TinRecord) (L : ℚ) (idx : ℕ) (pn : Str) (qty : ℤ) :
    QuoteLine :=
  let t := addRowLookup refs pn
  let listPrice := parseMoney t.2.2.1
  let trmBase := parseMoney t.2.2.2
  { no := toDecChars (idx + 1)
    pn := pn
    desc := t.1
    qty := toDecChars (max 1 qty).toNat
    ctrl := ['1']
    pack := (t.2.1).getD []
    listDisp := listPrice
    listData := listPrice.getD 0
    trimmDisp := trmBase.map (· * L)
    baseTrimm := trmBase.getD 0 }

/-- Model of `_add_row_by_pn`: an empty part number adds nothing, otherwise
one row is appended. -/
def addRowByPn (refs : List TinRecord) (pn : Str) (qty : ℤ) (s : AppState) :
    AppState :=
  if pn = [] then s
  else { s with rows := s.rows ++ [mkLine refs s.logistics s.rows.length pn qty] }

/-- Model of `_on_logistics_changed` (mag_panel.py lines 713-726), the dead
rescale handler: for each row it re-renders the trimm cell from the fixed
`USERROLE_BASE_TRIMM` base and the current multiplier (`""` when the stored
base is `0.0`), then recomputes the totals.  The handler reads the
logistics spin, so it acts on a state whose `logistics` field already holds
the new value. -/
def onLogisticsChanged (s : AppState) : AppState :=
  recalcState { s with rows := s.rows.map (fun r =>
    { r with trimmDisp :=
        if r.baseTrimm ≠ 0 then some (r.baseTrimm * s.logistics) else none }) }

/-- The editable text columns of the table (edits of the rendered price
cells change neither the stored user roles nor anything the totals read,
and are not modeled). -/
inductive CellCol
  | colNo | colPn | colDesc | colQty | colCtrl | colPack

def setCell (c : CellCol) (txt : Str) (r : QuoteLine) : QuoteLine :=
  match c with
  | .colNo => { r with no := txt }
  | .colPn => { r with pn := txt }
  | .colDesc => { r with desc := txt }
  | .colQty => { r with qty := txt }
  | .colCtrl => { r with ctrl := txt }
  | .colPack => { r with pack := txt }

def updateAt {α : Type} : ℕ → (α → α) → List α → List α
  | _, _, [] => []
  | 0, f, a :: l => f a :: l
  | n + 1, f, a :: l => a :: updateAt n f l

/-- The user-visible mutations of claim C2. -/
inductive PanelEvent
  | setDiscount (v : ℚ)
  | setLogistics (v : ℚ)
  | setKurs (v : ℚ)
  | editCell (r : ℕ) (c : CellCol) (txt : Str)
  | deleteRows (sel : List ℕ)
  | appendSummary (pn : Str) (qty : ℕ)
  | moveDown
  | clearCat

/-- Event dispatch exactly as wired in `_build_ui` (mag_panel.py lines
132-236): `table.itemChanged` is connected to `_on_table_item_changed`
(which recomputes totals), the three row buttons are connected to their
slots, and — decisive for C2 — none of `discountSpin`, `logisticsSpin`,
`kursSpin` has a `valueChanged` connection, so changing a spin box only
stores the new value; `_on_logistics_changed` is never invoked.  Appending
through `add_to_summary` uses `max(1, spin or 1)` and explicitly renumbers
and recomputes; deleting, moving and clearing recompute through their slots
or through the `itemChanged` signals the rewrites emit. -/
def step (refs : List TinRecord) (ev : PanelEvent) (s : AppState) : AppState :=
  match ev with
  | .setDiscount v => { s with discount := v }
  | .setLogistics v => { s with logistics := v }
  | .setKurs v => { s with kurs := v }
  | .editCell r c t => recalcState { s with rows := updateAt r (setCell c t) s.rows }
  | .deleteRows sel =>
      recalcState { s with rows := renumberRows (removeIndices s.rows sel) }
  | .appendSummary pn q =>
      let s1 := addRowByPn refs pn (max 1 (q : ℤ)) s
      recalcState { s1 with rows := renumberRows s1.rows }
  | .moveDown => recalcState { s with rows := renumberRows (moveFirst s.rows) }
  | .clearCat =>
      recalcState { s with rows := s.rows.map (fun r => { r with pn := [] }) }

/-! ### Claim C1: the totals formula -/

theorem recalc_fold_eq (rows : List QuoteLine) (L : ℚ) :
    ∀ a b : ℚ,
      rows.foldl
        (fun (acc : ℚ × ℚ) r =>
          (acc.1 + (qtyParse r.qty : ℚ) * r.listData,
            acc.2 + (qtyParse r.qty : ℚ) * r.baseTrimm * L))
        (a, b) =
      (a + (rows.map fun r => (qtyParse r.qty : ℚ) * r.listData).sum,
        b + (rows.map fun r => (qtyParse r.qty : ℚ) * r.baseTrimm * L).sum) := by
  induction rows with
  | nil => intro a b; simp
  | cons r t ih =>
    intro a b
    simp only [List.foldl_cons, List.map_cons, List.sum_cons, ih]
    rw [Prod.mk.injEq]
    constructor <;> ring

/-- C1: the recomputed total is `(Σ qᵢ·pᵢ)·(1 − d/100)·K`, where `qᵢ` is the
parsed quantity (0 on parse failure), `pᵢ` the stored list unit price; the
margin is `(listTotal − trimmTotal)/trimmTotal` with
`trimmTotal = (Σ qᵢ·bᵢ·L)·K` over the stored bases `bᵢ`, shown only when
`trimmTotal > 0` and a dash (`none`) otherwise. -/
theorem c1_recalc_totals_formula (rows : List QuoteLine) (d L K : ℚ) :
    recalcTotals rows d L K =
      ((rows.map fun r => (qtyParse r.qty : ℚ) * r.listData).sum * (1 - d / 100) * K,
        if 0 < (rows.map fun r => (qtyParse r.qty : ℚ) * r.baseTrimm * L).sum * K then
          some
            (((rows.map fun r => (qtyParse r.qty : ℚ) * r.listData).sum * (1 - d / 100) * K -
                (rows.map fun r => (qtyParse r.qty : ℚ) * r.baseTrimm * L).sum * K) /
              ((rows.map fun r => (qtyParse r.qty : ℚ) * r.baseTrimm * L).sum * K))
        else none) := by
  simp only [recalcTotals, recalc_fold_eq rows L 0 0, zero_add]

/-! ### Claim C2: which mutations actually recompute the labels -/

/-- A one-row state whose labels are consistent with its contents:
quantity 1, list price 20, base trimm 10, no discount, logistics 1,
currency 1, so the total reads 20 and the margin (20−10)/10 = 1. -/
def c2Row : QuoteLine :=
  { no := "1".data, pn := "P".data, desc := [], qty := "1".data,
    ctrl := "1".data, pack := [], listDisp := some 20, trimmDisp := some 10,
    listData := 20, baseTrimm := 10 }

def c2State : AppState :=
  { rows := [c2Row], discount := 0, logistics := 1, kurs := 1,
    shownTotal := 20, shownMargin := some 1 }

/-- C2 (divergence at the failing input): starting from a state whose
labels agree with a recomputation, changing the logistics spin box to 2
leaves the displayed margin at its stale value 1 although a recomputation
over the new state yields 0 — no `valueChanged` signal of the discount,
logistics or currency spin boxes is connected in `_build_ui`, and
`_on_logistics_changed` is dead code. -/
theorem c2_stale_labels_after_spin_change :
    c2State.shownMargin =
        (recalcTotals c2State.rows c2State.discount c2State.logistics
          c2State.kurs).2 ∧
      (step [] (.setLogistics 2) c2State).shownMargin ≠
        (recalcTotals (step [] (.setLogistics 2) c2State).rows
          (step [] (.setLogistics 2) c2State).discount
          (step [] (.setLogistics 2) c2State).logistics
          (step [] (.setLogistics 2) c2State).kurs).2 := by
  constructor
  · with_unfolding_all decide
  · with_unfolding_all decide

/-! ### The template engine -/

/-- Model of `str.lower()` on the ASCII and Cyrillic letters occurring in
the data (`A-Z`, `А-Я`, `Ё`). -/
def lowerChar (c : Char) : Char :=
  if 65 ≤ c.toNat ∧ c.toNat ≤ 90 then Char.ofNat (c.toNat + 32)
  else if 1040 ≤ c.toNat ∧ c.toNat ≤ 1071 then Char.ofNat (c.toNat + 32)
  else if c.toNat = 1025 then Char.ofNat 1105
  else c

def pyLower (s : Str) : Str := s.map lowerChar

/-- A row of the `Templates` table (`Type`, `PN`, `Qts` columns, nullable). -/
structure TemplateRow where
  typ : Option Str
  pn : Option Str
  qts : Option Str

/-- Quantity of a template row at load (`_preload_templates`, mag_panel.py
lines 526-531): `int(float(raw))` when present, 1 when missing or
unparseable. -/
def templateQty (q : Option Str) : ℤ :=
  match q with
  | none => 1
  | some s =>
      match pyFloat s with
      | some v => ratTrunc v
      | none => 1

/-- The item list `templates[key]` built by `_preload_templates`
(mag_panel.py lines 489-535): rows in table order, skipping rows with a
blank stripped name (`str(row[0] or "").strip()`) or a blank normalized
part number; the key is the lowered name; the quantity is clamped by
`max(1, q)`. -/
def templatesGet (rows : List TemplateRow) (key : Str) : List (Str × ℤ) :=
  rows.filterMap fun row =>
    let t := pyStrip (row.typ.getD [])
    let pnn := normRefOpt row.pn
    if t ≠ [] ∧ pnn ≠ [] ∧ pyLower t = key then
      some (pnn, max 1 (templateQty row.qts))
    else none

/-- Model of `_apply_template` (mag_panel.py lines 542-556) with templates
preloaded: look up the trimmed lowered name; with no items only a message
is shown; otherwise `_add_row_by_pn` appends one row per item in loaded
order (every loaded part number is non-blank, so each call adds exactly one
row), then `_renumber` rewrites the sequence column and the `itemChanged`
signals its `setItem` calls emit recompute the totals. -/
def applyTemplate (refs : List TinRecord) (trows : List TemplateRow)
    (name : Str) (s : AppState) : AppState :=
  let items := templatesGet trows (pyLower (pyStrip name))
  if items.isEmpty then s
  else
    let s1 := items.foldl (fun st it => addRowByPn refs it.1 it.2 st) s
    recalcState { s1 with rows := renumberRows s1.rows }

/-! ### Projections and stability lemmas for the table operations -/

/-- Everything in a quote line except the sequence-number cell: part
number, description, quantity, control flag, pack size, the two rendered
prices and the two stored prices. -/
def QuoteLine.core (r : QuoteLine) :
    Str × Str × Str × Str × Str × Option ℚ × Option ℚ × ℚ × ℚ :=
  (r.pn, r.desc, r.qty, r.ctrl, r.pack, r.listDisp, r.trimmDisp,
    r.listData, r.baseTrimm)

/-- The two stored prices of a line (the user-role data). -/
def QuoteLine.storedPrices (r : QuoteLine) : ℚ × ℚ := (r.listData, r.baseTrimm)

theorem renumAux_map_inv {β : Type} (f : QuoteLine → β)
    (hf : ∀ (r : QuoteLine) (t : Str), f { r with no := t } = f r) :
    ∀ (k : ℕ) (l : List QuoteLine), (renumAux k l).map f = l.map f := by
  intro k l
  induction l generalizing k with
  | nil => rfl
  | cons r rest ih =>
    simp only [renumAux, List.map_cons, hf, ih]

theorem renumber_map_inv {β : Type} (f : QuoteLine → β)
    (hf : ∀ (r : QuoteLine) (t : Str), f { r with no := t } = f r)
    (l : List QuoteLine) : (renumberRows l).map f = l.map f :=
  renumAux_map_inv f hf 0 l

theorem renumAux_map_no : ∀ (k : ℕ) (l : List QuoteLine),
    (renumAux k l).map (fun r => r.no) =
      (List.range l.length).map (fun i => toDecChars (k + i + 1)) := by
  intro k l
  induction l generalizing k with
  | nil => rfl
  | cons r rest ih =>
    simp only [renumAux, List.map_cons, List.length_cons,
      List.range_succ_eq_map, List.map_map, ih]
    refine congrArg₂ List.cons (congrArg toDecChars (by omega)) ?_
    exact List.map_congr_left fun i _ => by
      simp only [Function.comp_apply, Nat.succ_eq_add_one]
      exact congrArg toDecChars (by omega)

theorem renumber_map_no (l : List QuoteLine) :
    (renumberRows l).map (fun r => r.no) =
      (List.range l.length).map (fun i => toDecChars (i + 1)) := by
  rw [renumberRows, renumAux_map_no]
  exact List.map_congr_left fun i _ => congrArg toDecChars (by omega)

theorem renumAux_length : ∀ (k : ℕ) (l : List QuoteLine),
    (renumAux k l).length = l.length := by
  intro k l
  induction l generalizing k with
  | nil => rfl
  | cons r rest ih => simp only [renumAux, List.length_cons, ih]

theorem removeIndices_map_sublist {β : Type} (f : QuoteLine → β)
    (l : List QuoteLine) (sel : List ℕ) :
    ((removeIndices l sel).map f).Sublist (l.map f) := by
  have h1 : (l.enum.filter fun p => !(sel.contains p.1)).Sublist l.enum :=
    List.filter_sublist _
  have h2 := h1.map Prod.snd
  rw [List.enum_map_snd] at h2
  exact h2.map f

theorem moveFirst_perm : ∀ l : List QuoteLine, (moveFirst l).Perm l := by
  intro l
  induction l with
  | nil => simp [moveFirst]
  | cons a t ih =>
    cases t with
    | nil => simp [moveFirst]
    | cons b rest =>
      rw [moveFirst]
      by_cases h : pyStrip a.pn ≠ []
      · rw [if_pos h]
        exact List.Perm.swap a b rest
      · rw [if_neg h]
        exact List.Perm.cons a ih

theorem updateAt_map_eq {α β : Type} (g : α → β) (f : α → α)
    (h : ∀ a, g (f a) = g a) :
    ∀ (n : ℕ) (l : List α), (updateAt n f l).map g = l.map g := by
  intro n l
  induction l generalizing n with
  | nil => cases n <;> rfl
  | cons a t ih =>
    cases n with
    | zero => simp only [updateAt, List.map_cons, h]
    | succ m => simp only [updateAt, List.map_cons, ih]

theorem map_map_eq {β : Type} {f : QuoteLine → QuoteLine} {g : QuoteLine → β}
    (h : ∀ r, g (f r) = g r) (l : List QuoteLine) :
    (l.map f).map g = l.map g := by
  rw [List.map_map]
  exact List.map_congr_left fun r _ => h r

theorem templatesGet_pn_ne (trows : List TemplateRow) (key : Str) :
    ∀ it ∈ templatesGet trows key, it.1 ≠ [] := by
  intro it hit
  simp only [templatesGet, List.mem_filterMap] at hit
  obtain ⟨row, _, heq⟩ := hit
  split at heq
  · next hcond =>
    obtain ⟨rfl⟩ : (normRefOpt row.pn, max 1 (templateQty row.qts)) = it := by
      simpa using heq
    exact hcond.2.1
  · simp at heq

theorem addRowByPn_rows {refs : List TinRecord} {pn : Str} (qty : ℤ)
    (s : AppState) (h : pn ≠ []) :
    (addRowByPn refs pn qty s).rows =
        s.rows ++ [mkLine refs s.logistics s.rows.length pn qty] ∧
      (addRowByPn refs pn qty s).logistics = s.logistics := by
  simp [addRowByPn, h]

theorem mkLine_core_idx (refs : List TinRecord) (L : ℚ) (i j : ℕ) (pn : Str)
    (qty : ℤ) : (mkLine refs L i pn qty).core = (mkLine refs L j pn qty).core :=
  rfl

theorem foldl_addRows (refs : List TinRecord) (items : List (Str × ℤ)) :
    ∀ s : AppState, (∀ it ∈ items, it.1 ≠ []) →
      ((items.foldl (fun st it => addRowByPn refs it.1 it.2 st) s).rows.map
            QuoteLine.core =
          s.rows.map QuoteLine.core ++
            items.map (fun it => (mkLine refs s.logistics 0 it.1 it.2).core)) ∧
        (items.foldl (fun st it => addRowByPn refs it.1 it.2 st) s).logistics =
          s.logistics := by
  induction items with
  | nil => intro s _; simp
  | cons it ts ih =>
    intro s hall
    have hne : it.1 ≠ [] := hall it (List.mem_cons_self it ts)
    obtain ⟨hrows, hlog⟩ := addRowByPn_rows it.2 s hne
    obtain ⟨ihr, ihl⟩ :=
      ih (addRowByPn refs it.1 it.2 s) fun x hx => hall x (List.mem_cons_of_mem it hx)
    simp only [List.foldl_cons]
    constructor
    · rw [ihr, hrows, hlog, List.map_append, List.map_cons]
      simp only [List.map_cons, List.append_assoc, List.map_nil,
        List.singleton_append]
      rw [mkLine_core_idx refs s.logistics s.rows.length 0]
    · rw [ihl, hlog]

/-! ### Claims C4, C5, C7 -/

/-- C5: applying the template named `T` appends to the table exactly one
line per loaded `(part number, quantity)` pair, in loaded order (rows are
matched on the trimmed, lowercased template name; blank names or blank
normalized part numbers were skipped at load; a missing or unparseable
quantity became 1; quantities are clamped to at least 1 — all inside
`templatesGet`); each appended line is the `_add_row_by_pn` row for its
pair, and afterwards the sequence column reads `1..N` (unchanged when the
template has no items). -/
theorem c5_apply_template_appends (refs : List TinRecord)
    (trows : List TemplateRow) (name : Str) (s : AppState) :
    (applyTemplate refs trows name s).rows.map QuoteLine.core =
        (if (templatesGet trows (pyLower (pyStrip name))).isEmpty then
          s.rows.map QuoteLine.core
        else
          s.rows.map QuoteLine.core ++
            (templatesGet trows (pyLower (pyStrip name))).map
              (fun it => (mkLine refs s.logistics 0 it.1 it.2).core)) ∧
      (applyTemplate refs trows name s).rows.map (fun r => r.no) =
        (if (templatesGet trows (pyLower (pyStrip name))).isEmpty then
          s.rows.map (fun r => r.no)
        else
          (List.range (applyTemplate refs trows name s).rows.length).map
            (fun i => toDecChars (i + 1))) := by
  by_cases he : (templatesGet trows (pyLower (pyStrip name))).isEmpty
  · constructor <;> simp [applyTemplate, he]
  · have hall := templatesGet_pn_ne trows (pyLower (pyStrip name))
    obtain ⟨hcore, _⟩ := foldl_addRows refs _ s hall
    have hrows : (applyTemplate refs trows name s).rows =
        renumberRows
          ((templatesGet trows (pyLower (pyStrip name))).foldl
            (fun st it => addRowByPn refs it.1 it.2 st) s).rows := by
      unfold applyTemplate
      rw [if_neg he]
      rfl
    constructor
    · rw [hrows, renumber_map_inv QuoteLine.core (fun r t => rfl), hcore,
        if_neg he]
    · rw [if_neg he, hrows, renumber_map_no, renumberRows, renumAux_length]

/-- C7: deleting the selected rows, and moving the first row with a
non-blank part number down one position, both preserve every surviving
line's part number, description, quantity, control flag, pack size,
rendered prices and stored prices (deletion leaves a sublist of the old
lines, the move a permutation), while the sequence column is rewritten to
`1..N` in the new order. -/
theorem c7_delete_move_renumber :
    (∀ (refs : List TinRecord) (s : AppState) (sel : List ℕ),
        ((step refs (.deleteRows sel) s).rows.map QuoteLine.core).Sublist
            (s.rows.map QuoteLine.core) ∧
          (step refs (.deleteRows sel) s).rows.map (fun r => r.no) =
            (List.range (step refs (.deleteRows sel) s).rows.length).map
              (fun i => toDecChars (i + 1))) ∧
      ∀ (refs : List TinRecord) (s : AppState),
        ((step refs PanelEvent.moveDown s).rows.map QuoteLine.core).Perm
            (s.rows.map QuoteLine.core) ∧
          (step refs PanelEvent.moveDown s).rows.map (fun r => r.no) =
            (List.range (step refs PanelEvent.moveDown s).rows.length).map
              (fun i => toDecChars (i + 1)) := by
  constructor
  · intro refs s sel
    constructor
    · show ((renumberRows (removeIndices s.rows sel)).map QuoteLine.core).Sublist
        (s.rows.map QuoteLine.core)
      rw [renumber_map_inv QuoteLine.core (fun r t => rfl)]
      exact removeIndices_map_sublist QuoteLine.core s.rows sel
    · show (renumberRows (removeIndices s.rows sel)).map (fun r => r.no) = _
      have hlen : (step refs (PanelEvent.deleteRows sel) s).rows.length =
          (removeIndices s.rows sel).length := by
        show (renumberRows _).length = _
        rw [renumberRows, renumAux_length]
      rw [renumber_map_no, hlen]
  · intro refs s
    constructor
    · show ((renumberRows (moveFirst s.rows)).map QuoteLine.core).Perm
        (s.rows.map QuoteLine.core)
      rw [renumber_map_inv QuoteLine.core (fun r t => rfl)]
      exact (moveFirst_perm s.rows).map QuoteLine.core
    · show (renumberRows (moveFirst s.rows)).map (fun r => r.no) = _
      have hlen : (step refs PanelEvent.moveDown s).rows.length =
          (moveFirst s.rows).length := by
        show (renumberRows _).length = _
        rw [renumberRows, renumAux_length]
      rw [renumber_map_no, hlen]

/-- C4: the two prices stored in a line at insertion (the user-role data,
filled from the combined reference lookup) are never changed by any later
operation — the dead rescale handler only re-renders the trimm cell as the
fixed base times the current multiplier, deletion/moving/editing/clearing
and the spin boxes leave every surviving line's stored prices intact, and
both row-appending paths store exactly the lookup prices — and the totals
always multiply the fixed base by the current multiplier. -/
theorem c4_prices_fixed_at_insertion :
    (∀ s : AppState,
      (onLogisticsChanged s).rows.map QuoteLine.storedPrices =
          s.rows.map QuoteLine.storedPrices ∧
        (onLogisticsChanged s).rows.map (fun r => r.trimmDisp) =
          s.rows.map (fun r =>
            if r.baseTrimm ≠ 0 then some (r.baseTrimm * s.logistics) else none) ∧
        (onLogisticsChanged s).rows.map (fun r => r.listDisp) =
          s.rows.map (fun r => r.listDisp)) ∧
    (∀ (refs : List TinRecord) (s : AppState) (sel : List ℕ),
      ((step refs (.deleteRows sel) s).rows.map QuoteLine.storedPrices).Sublist
        (s.rows.map QuoteLine.storedPrices)) ∧
    (∀ (refs : List TinRecord) (s : AppState),
      ((step refs PanelEvent.moveDown s).rows.map QuoteLine.storedPrices).Perm
        (s.rows.map QuoteLine.storedPrices)) ∧
    (∀ (refs : List TinRecord) (s : AppState) (r : ℕ) (c : CellCol) (t : Str),
      (step refs (.editCell r c t) s).rows.map QuoteLine.storedPrices =
        s.rows.map QuoteLine.storedPrices) ∧
    (∀ (refs : List TinRecord) (s : AppState),
      (step refs PanelEvent.clearCat s).rows.map QuoteLine.storedPrices =
        s.rows.map QuoteLine.storedPrices) ∧
    (∀ (refs : List TinRecord) (s : AppState) (v : ℚ),
      (step refs (.setDiscount v) s).rows = s.rows ∧
        (step refs (.setLogistics v) s).rows = s.rows ∧
        (step refs (.setKurs v) s).rows = s.rows) ∧
    (∀ (refs : List TinRecord) (s : AppState) (pn : Str) (q : ℕ),
      (step refs (.appendSummary pn q) s).rows.map QuoteLine.storedPrices =
        s.rows.map QuoteLine.storedPrices ++
          (if pn = [] then []
           else
            [((parseMoney (addRowLookup refs pn).2.2.1).getD 0,
              (parseMoney (addRowLookup refs pn).2.2.2).getD 0)])) ∧
    (∀ (rows : List QuoteLine) (d L K : ℚ),
      (recalcTotals rows d L K).2 =
        if 0 < (rows.map fun r => (qtyParse r.qty : ℚ) * r.baseTrimm * L).sum * K then
          some
            (((rows.map fun r => (qtyParse r.qty : ℚ) * r.listData).sum *
                  (1 - d / 100) * K -
                (rows.map fun r => (qtyParse r.qty : ℚ) * r.baseTrimm * L).sum * K) /
              ((rows.map fun r => (qtyParse r.qty : ℚ) * r.baseTrimm * L).sum * K))
        else none) := by
  refine ⟨?_, ?_, ?_, ?_, ?_, ?_, ?_, ?_⟩
  · intro s
    have hrows : (onLogisticsChanged s).rows = s.rows.map (fun r =>
        { r with trimmDisp :=
            if r.baseTrimm ≠ 0 then some (r.baseTrimm * s.logistics)
            else none }) := rfl
    refine ⟨?_, ?_, ?_⟩ <;> rw [hrows] <;> rw [List.map_map] <;>
      exact List.map_congr_left fun r _ => rfl
  · intro refs s sel
    show ((renumberRows (removeIndices s.rows sel)).map QuoteLine.storedPrices).Sublist _
    rw [renumber_map_inv QuoteLine.storedPrices (fun r t => rfl)]
    exact removeIndices_map_sublist QuoteLine.storedPrices s.rows sel
  · intro refs s
    show ((renumberRows (moveFirst s.rows)).map QuoteLine.storedPrices).Perm _
    rw [renumber_map_inv QuoteLine.storedPrices (fun r t => rfl)]
    exact (moveFirst_perm s.rows).map QuoteLine.storedPrices
  · intro refs s r c t
    show (updateAt r (setCell c t) s.rows).map QuoteLine.storedPrices = _
    exact updateAt_map_eq QuoteLine.storedPrices (setCell c t)
      (fun a => by cases c <;> rfl) r s.rows
  · intro refs s
    have hrows : (step refs PanelEvent.clearCat s).rows =
        s.rows.map (fun r => { r with pn := [] }) := rfl
    rw [hrows, List.map_map]
    exact List.map_congr_left fun r _ => rfl
  · intro refs s v
    exact ⟨rfl, rfl, rfl⟩
  · intro refs s pn q
    show (renumberRows (addRowByPn refs pn (max 1 (q : ℤ)) s).rows).map
        QuoteLine.storedPrices = _
    rw [renumber_map_inv QuoteLine.storedPrices (fun r t => rfl)]
    by_cases hpn : pn = []
    · simp [addRowByPn, hpn]
    · obtain ⟨hrows, _⟩ := @addRowByPn_rows refs pn (max 1 (q : ℤ)) s hpn
      rw [hrows, List.map_append, if_neg hpn]
      rfl
  · intro rows d L K
    simp only [recalcTotals, recalc_fold_eq rows L 0 0, zero_add]

/-! ### Claim C6: the options cache -/

/-- A cached row of a per-category table (`_preload_all_db` keeps the
columns `DIV`, `Disc Sh`, `PN`, `SIDE`). -/
structure OptionRow where
  div : Str
  disc : Str
  pn : Str
  side : Str

/-- The row filter of `_build_options_cache` (mag_panel.py lines 473-486):
the stripped lowered division must equal the stripped lowered mode, and a
row is dropped for a requested side only when the request is a non-empty
string, the row's side field is non-empty and the two differ after
strip+lower. -/
def optRowKept (mode : Str) (side : Option Str) (r : OptionRow) : Bool :=
  (pyLower (pyStrip r.div) == pyLower (pyStrip mode)) &&
    (match side with
     | none => true
     | some sv =>
         sv.isEmpty || r.side.isEmpty ||
           (pyLower (pyStrip r.side) == pyLower (pyStrip sv)))

/-- A row qualifies for the label map when it passes the filter and has a
non-empty label and part number. -/
def optQual (mode : Str) (side : Option Str) (r : OptionRow) : Bool :=
  optRowKept mode side r && !r.disc.isEmpty && !r.pn.isEmpty

/-- One step of the cache-building loop: `mapping[disc] = pn` only when the
row qualifies and the label is not yet present. -/
def buildStep (mode : Str) (side : Option Str) (m : List (Str × Str))
    (r : OptionRow) : List (Str × Str) :=
  if optRowKept mode side r = true ∧ r.disc ≠ [] ∧ r.pn ≠ [] ∧
      m.lookup r.disc = none then
    m ++ [(r.disc, r.pn)]
  else m

/-- Model of `_build_options_cache`: the label-to-part-number dictionary as
an association list in insertion order (each label is inserted at most
once, so association-list lookup is the dictionary lookup). -/
def buildOptionsCache (rows : List OptionRow) (mode : Str)
    (side : Option Str) : List (Str × Str) :=
  rows.foldl (buildStep mode side) []

theorem lookup_append {α β : Type} [BEq α] (l1 l2 : List (α × β)) (k : α) :
    (l1 ++ l2).lookup k = ((l1.lookup k).orElse fun _ => l2.lookup k) := by
  induction l1 with
  | nil => rfl
  | cons p t ih =>
    obtain ⟨a, b⟩ := p
    simp only [List.cons_append, List.lookup]
    cases h : k == a with
    | true => rfl
    | false => simpa using ih

theorem buildOptions_go (mode : Str) (side : Option Str) (label : Str) :
    ∀ (rows : List OptionRow) (m : List (Str × Str)),
      (rows.foldl (buildStep mode side) m).lookup label =
        ((m.lookup label).orElse fun _ =>
          (rows.find? fun r => optQual mode side r && r.disc == label).map
            (fun r => r.pn)) := by
  intro rows
  induction rows with
  | nil =>
    intro m
    simp only [List.foldl_nil, List.find?_nil, Option.map_none']
    cases h : m.lookup label <;> simp [Option.orElse]
  | cons r rs ih =>
    intro m
    simp only [List.foldl_cons]
    rw [ih]
    by_cases hc : optRowKept mode side r = true ∧ r.disc ≠ [] ∧ r.pn ≠ [] ∧
        m.lookup r.disc = none
    · rw [show buildStep mode side m r = m ++ [(r.disc, r.pn)] from if_pos hc]
      rw [lookup_append]
      by_cases hd : r.disc = label
      · subst hd
        have hopt : optQual mode side r = true := by
          simp [optQual, hc.1, hc.2.1, hc.2.2.1]
        have hml : m.lookup r.disc = none := hc.2.2.2
        simp [hml, Option.orElse, List.find?, hopt, List.lookup]
      · have hq0 : (r.disc == label) = false := by
          simpa using hd
        have hsingle : ([(r.disc, r.pn)] : List (Str × Str)).lookup label = none := by
          simp only [List.lookup]
          rw [show (label == r.disc) = false by simpa using Ne.symm hd]
        rw [hsingle]
        have hfind : (List.find? (fun x => optQual mode side x && (x.disc == label))
            (r :: rs)) = List.find? (fun x => optQual mode side x && (x.disc == label)) rs := by
          simp [List.find?, hq0]
        rw [hfind]
        cases hm : m.lookup label <;> simp [Option.orElse]
    · rw [show buildStep mode side m r = m from if_neg hc]
      by_cases hq : (optQual mode side r && (r.disc == label)) = true
      · have h1 : optQual mode side r = true ∧ (r.disc == label) = true := by
          simpa [Bool.and_eq_true] using hq
        have hdisc : r.disc = label := by simpa using h1.2
        have hkept : optRowKept mode side r = true ∧ r.disc ≠ [] ∧ r.pn ≠ [] := by
          have := h1.1
          simp only [optQual, Bool.and_eq_true] at this
          refine ⟨this.1.1, ?_, ?_⟩
          · simpa using this.1.2
          · simpa using this.2
        subst hdisc
        cases hv : m.lookup r.disc with
        | none => exact absurd ⟨hkept.1, hkept.2.1, hkept.2.2, hv⟩ hc
        | some v => simp [hv, Option.orElse]
      · have hq0 : (optQual mode side r && (r.disc == label)) = false :=
          Bool.not_eq_true _ ▸ eq_false_of_ne_true hq
        have hfind : (List.find? (fun x => optQual mode side x && (x.disc == label))
            (r :: rs)) = List.find? (fun x => optQual mode side x && (x.disc == label)) rs := by
          simp [List.find?, hq0]
        rw [hfind]

/-- C6: the cached option map sends a display label to a part number
exactly when some cached row passes the division filter (trimmed,
case-insensitive equality with the mode), the optional side filter (empty
side field or trimmed case-insensitive equality with the requested side)
and has a non-empty label and part number equal to them — and among several
qualifying rows with the same label, the first one's part number is kept. -/
theorem c6_options_cache_lookup (rows : List OptionRow) (mode : Str)
    (side : Option Str) (label : Str) :
    (buildOptionsCache rows mode side).lookup label =
      (rows.find? fun r => optQual mode side r && r.disc == label).map
        (fun r => r.pn) := by
  rw [buildOptionsCache, buildOptions_go]
  rfl

/-! ### The admin grid (pg_admin_gui.py): values, coercion, operations -/

/-- The SQLAlchemy column-type classes distinguished by `coerce_value`. -/
inductive ColTy
  | boolean | integer | floating | numericTy | datetimeTy | dateTy | timeTy
  | textTy | largeBin | otherTy
deriving DecidableEq

/-- Python values travelling through the grid (dates as `(y, m, d)`,
times as `(h, min, s)`, floats exact over ℚ). -/
inductive PyVal
  | null
  | bool (b : Bool)
  | int (i : ℤ)
  | float (q : ℚ)
  | datetime (v : (ℕ × ℕ × ℕ) × (ℕ × ℕ × ℕ))
  | date (v : ℕ × ℕ × ℕ)
  | time (v : ℕ × ℕ × ℕ)
  | str (s : Str)
deriving DecidableEq

def isLeapYear (y : ℕ) : Bool := (y % 4 = 0 && y % 100 ≠ 0) || y % 400 = 0

def daysInMonth (y m : ℕ) : ℕ :=
  if m = 2 then (if isLeapYear y then 29 else 28)
  else if m = 4 ∨ m = 6 ∨ m = 9 ∨ m = 11 then 30
  else 31

/-- Model of `datetime.date.fromisoformat` on its canonical `YYYY-MM-DD`
form, with calendar validation. -/
def pyDateParse (s : Str) : Option (ℕ × ℕ × ℕ) :=
  match s with
  | [y1, y2, y3, y4, h1, m1, m2, h2, d1, d2] =>
      if h1 = '-' ∧ h2 = '-' ∧
          isDigitC y1 ∧ isDigitC y2 ∧ isDigitC y3 ∧ isDigitC y4 ∧
          isDigitC m1 ∧ isDigitC m2 ∧ isDigitC d1 ∧ isDigitC d2 then
        let y := natValOf [y1, y2, y3, y4]
        let m := natValOf [m1, m2]
        let d := natValOf [d1, d2]
        if 1 ≤ m ∧ m ≤ 12 ∧ 1 ≤ d ∧ d ≤ daysInMonth y m then some (y, m, d)
        else none
      else none
  | _ => none

/-- Model of `datetime.time.fromisoformat` on its `HH:MM[:SS]` forms
(fractional seconds and offsets are outside the data's fragment). -/
def pyTimeParse (s : Str) : Option (ℕ × ℕ × ℕ) :=
  match s with
  | [a1, a2, c1, b1, b2] =>
      if c1 = ':' ∧ isDigitC a1 ∧ isDigitC a2 ∧ isDigitC b1 ∧ isDigitC b2 then
        let hh := natValOf [a1, a2]
        let mm := natValOf [b1, b2]
        if hh < 24 ∧ mm < 60 then some (hh, mm, 0) else none
      else none
  | [a1, a2, c1, b1, b2, c2, e1, e2] =>
      if c1 = ':' ∧ c2 = ':' ∧ isDigitC a1 ∧ isDigitC a2 ∧ isDigitC b1 ∧
          isDigitC b2 ∧ isDigitC e1 ∧ isDigitC e2 then
        let hh := natValOf [a1, a2]
        let mm := natValOf [b1, b2]
        let ss := natValOf [e1, e2]
        if hh < 24 ∧ mm < 60 ∧ ss < 60 then some (hh, mm, ss) else none
      else none
  | _ => none

/-- Model of `datetime.datetime.fromisoformat`: a bare date (midnight) or a
date, a `'T'`/space separator, and a time. -/
def pyDateTimeParse (s : Str) : Option ((ℕ × ℕ × ℕ) × (ℕ × ℕ × ℕ)) :=
  match pyDateParse s with
  | some d => some (d, (0, 0, 0))
  | none =>
      match s.drop 10 with
      | c :: tpart =>
          if c = 'T' ∨ c = ' ' then
            (pyDateParse (s.take 10)).bind fun d =>
              (pyTimeParse tpart).map fun t => (d, t)
          else none
      | [] => none

/-- The truthy strings of the Boolean branch of `coerce_value`
(pg_admin_gui.py line 25): `raw.lower() in ("true","t","1","yes","y","on","да")`. -/
def pyBoolOf (s : Str) : Bool :=
  (["true", "t", "1", "yes", "y", "on", "да"].map String.data).contains
    (pyLower s)

/-- Model of `coerce_value` (pg_admin_gui.py lines 20-33): empty or missing
text becomes `None`; the isinstance chain converts by column type inside a
`try`; any conversion failure falls back to returning the raw string. -/
def coerceValue (t : ColTy) (raw : Option Str) : PyVal :=
  match raw with
  | none => .null
  | some s =>
      if s = [] then .null
      else
        match t with
        | .boolean => .bool (pyBoolOf s)
        | .integer =>
            match pyIntParse s with
            | some i => .int i
            | none => .str s
        | .floating | .numericTy =>
            match pyFloat s with
            | some q => .float q
            | none => .str s
        | .datetimeTy =>
            match pyDateTimeParse s with
            | some v => .datetime v
            | none => .str s
        | .dateTy =>
            match pyDateParse s with
            | some v => .date v
            | none => .str s
        | .timeTy =>
            match pyTimeParse s with
            | some v => .time v
            | none => .str s
        | .textTy | .largeBin | .otherTy => .str s

/-- Conversion as the claim describes it: the typed value when conversion
to the column's type succeeds, nothing otherwise (the Boolean and
string-like conversions always succeed). -/
def convValue (t : ColTy) (s : Str) : Option PyVal :=
  match t with
  | .boolean => some (.bool (pyBoolOf s))
  | .integer => (pyIntParse s).map .int
  | .floating => (pyFloat s).map .float
  | .numericTy => (pyFloat s).map .float
  | .datetimeTy => (pyDateTimeParse s).map .datetime
  | .dateTy => (pyDateParse s).map .date
  | .timeTy => (pyTimeParse s).map .time
  | .textTy => some (.str s)
  | .largeBin => some (.str s)
  | .otherTy => some (.str s)

/-- A database row as the grid sees it: column name to value. -/
abbrev AdminRow := List (Str × PyVal)

/-- A reflected table: columns with their types, the primary-key constraint
columns, and the rows. -/
structure AdminTable where
  cols : List (Str × ColTy)
  pkCols : List Str
  rows : List AdminRow

/-- Model of `App._detect_single_pk` (pg_admin_gui.py lines 490-493):
`cols[0] if len(cols) == 1 else None`. -/
def detectSinglePk (pkCols : List Str) : Option Str :=
  if pkCols.length = 1 then pkCols.head? else none

/-- The kinds of message boxes the handlers can show. -/
inductive AdminMsg
  | info | warning | errorBox
deriving DecidableEq

/-- The UPDATE payload of `EditDialog.on_save` (pg_admin_gui.py lines
69-81): every non-pk column set to the coerced entry text. -/
def editPayload (tbl : AdminTable) (pk : Str) (inputs : List (Str × Str)) :
    AdminRow :=
  (tbl.cols.filter fun c => c.1 ≠ pk).map fun c =>
    (c.1, coerceValue c.2 (some ((inputs.lookup c.1).getD [])))

def applyPayload (payload : AdminRow) (r : AdminRow) : AdminRow :=
  r.map fun kv =>
    match payload.lookup kv.1 with
    | some v => (kv.1, v)
    | none => kv

/-- Model of `on_edit_selected` / `on_tree_double_click` (pg_admin_gui.py
lines 381-414) followed by the dialog's save: nothing on empty selection,
an informational message on multi-selection, an informational message and
no change when no single-column primary key was detected, a warning when
the row has no primary-key value, and otherwise the UPDATE by primary
key. -/
def onEditSelected (tbl : AdminTable) (sel : List AdminRow)
    (inputs : List (Str × Str)) : AdminTable × Option AdminMsg :=
  match sel with
  | [] => (tbl, none)
  | _ :: _ :: _ => (tbl, some .info)
  | [row] =>
      match detectSinglePk tbl.pkCols with
      | none => (tbl, some .info)
      | some pk =>
          match row.lookup pk with
          | none => (tbl, some .warning)
          | some PyVal.null => (tbl, some .warning)
          | some pkv =>
              ({ tbl with rows := tbl.rows.map fun r =>
                  if r.lookup pk = some pkv then
                    applyPayload (editPayload tbl pk inputs) r
                  else r },
                none)

/-- Model of `on_bulk_update` (pg_admin_gui.py lines 416-434) together with
the bulk dialog's apply (lines 113-127): the primary-key gate comes before
the dialog, so without a single-column key only the informational message
is shown. -/
def onBulkUpdate (tbl : AdminTable) (sel : List AdminRow)
    (colname : Option Str) (rawNew : Str) : AdminTable × Option AdminMsg :=
  match sel with
  | [] => (tbl, none)
  | _ =>
      match detectSinglePk tbl.pkCols with
      | none => (tbl, some .info)
      | some pk =>
          let pkVals := sel.filterMap fun r => r.lookup pk
          if pkVals = [] then (tbl, some .warning)
          else
            match colname with
            | none => (tbl, some .warning)
            | some cn =>
                if cn = [] then (tbl, some .warning)
                else
                  let ty := (tbl.cols.lookup cn).getD ColTy.otherTy
                  let nv := coerceValue ty (some rawNew)
                  ({ tbl with rows := tbl.rows.map fun r =>
                      match r.lookup pk with
                      | some v =>
                          if v ∈ pkVals then
                            r.map fun kv =>
                              if kv.1 = cn then (kv.1, nv) else kv
                          else r
                      | none => r },
                    none)

/-- Model of `on_delete_selected` (pg_admin_gui.py lines 436-456): the
primary-key gate comes before the confirmation dialog; with a key and a
confirmation, the DELETE removes the rows whose key value is among the
selected ones. -/
def onDeleteSelected (tbl : AdminTable) (sel : List AdminRow)
    (confirmed : Bool) : AdminTable × Option AdminMsg :=
  match sel with
  | [] => (tbl, none)
  | _ =>
      match detectSinglePk tbl.pkCols with
      | none => (tbl, some .info)
      | some pk =>
          if !confirmed then (tbl, none)
          else
            let pkVals := sel.filterMap fun r => r.lookup pk
            ({ tbl with rows := tbl.rows.filter fun r =>
                match r.lookup pk with
                | some v => !(decide (v ∈ pkVals))
                | none => true },
              none)

/-! ### Claims C8 and C10 -/

/-- C8: a single-column primary key is detected exactly when the reflected
constraint has one column, and when it is not detected, single-row edit,
bulk update and deletion of a non-empty selection each show an
informational message and leave the table unchanged. -/
theorem c8_single_pk_gate :
    (∀ pkCols : List Str, (detectSinglePk pkCols).isSome ↔ pkCols.length = 1) ∧
    (∀ (tbl : AdminTable) (sel : List AdminRow) (inputs : List (Str × Str)),
      tbl.pkCols.length ≠ 1 → sel ≠ [] →
        onEditSelected tbl sel inputs = (tbl, some AdminMsg.info)) ∧
    (∀ (tbl : AdminTable) (sel : List AdminRow) (colname : Option Str)
        (rawNew : Str),
      tbl.pkCols.length ≠ 1 → sel ≠ [] →
        onBulkUpdate tbl sel colname rawNew = (tbl, some AdminMsg.info)) ∧
    (∀ (tbl : AdminTable) (sel : List AdminRow) (confirmed : Bool),
      tbl.pkCols.length ≠ 1 → sel ≠ [] →
        onDeleteSelected tbl sel confirmed = (tbl, some AdminMsg.info)) := by
  have hdet : ∀ pkCols : List Str, pkCols.length ≠ 1 →
      detectSinglePk pkCols = none := fun pkCols h => by
    simp [detectSinglePk, h]
  refine ⟨?_, ?_, ?_, ?_⟩
  · intro pkCols
    by_cases h : pkCols.length = 1
    · cases pkCols with
      | nil => simp at h
      | cons a t => simp [detectSinglePk, h]
    · simp [detectSinglePk, h]
  · intro tbl sel inputs h1 h2
    cases sel with
    | nil => exact absurd rfl h2
    | cons a t =>
      cases t with
      | nil => simp only [onEditSelected, hdet tbl.pkCols h1]
      | cons b u => rfl
  · intro tbl sel colname rawNew h1 h2
    cases sel with
    | nil => exact absurd rfl h2
    | cons a t => simp only [onBulkUpdate, hdet tbl.pkCols h1]
  · intro tbl sel confirmed h1 h2
    cases sel with
    | nil => exact absurd rfl h2
    | cons a t => simp only [onDeleteSelected, hdet tbl.pkCols h1]

/-- A concrete two-column-key table for the C8 witness. -/
def c8Tbl : AdminTable :=
  { cols := [("a".data, ColTy.integer), ("b".data, ColTy.integer)],
    pkCols := ["a".data, "b".data],
    rows := [[("a".data, PyVal.int 1), ("b".data, PyVal.int 2)]] }

/-- C8 witness: the gate theorem applied to a table whose primary key has
two columns and a one-row selection. -/
theorem c8_single_pk_gate_witness :
    onEditSelected c8Tbl c8Tbl.rows [] = (c8Tbl, some AdminMsg.info) ∧
      onBulkUpdate c8Tbl c8Tbl.rows none [] = (c8Tbl, some AdminMsg.info) ∧
      onDeleteSelected c8Tbl c8Tbl.rows true = (c8Tbl, some AdminMsg.info) :=
  ⟨c8_single_pk_gate.2.1 c8Tbl c8Tbl.rows [] (by decide) (by decide),
    c8_single_pk_gate.2.2.1 c8Tbl c8Tbl.rows none [] (by decide) (by decide),
    c8_single_pk_gate.2.2.2 c8Tbl c8Tbl.rows true (by decide) (by decide)⟩

/-- C10: `coerce_value` is total and behaves as claimed: `None` or empty
text yields `None`; otherwise the value is the successful conversion to the
column's type, and on conversion failure the raw string is passed through
unchanged (e.g. non-numeric text for an Integer column). -/
theorem c10_coerce_value_total :
    (∀ t : ColTy, coerceValue t none = PyVal.null) ∧
    (∀ (t : ColTy) (s : Str),
      coerceValue t (some s) =
        if s = [] then PyVal.null else (convValue t s).getD (PyVal.str s)) ∧
    coerceValue ColTy.integer (some "abc".data) = PyVal.str "abc".data := by
  refine ⟨fun t => rfl, ?_, by decide⟩
  intro t s
  by_cases hs : s = []
  · subst hs
    cases t <;> rfl
  · rw [if_neg hs]
    cases t <;> simp only [coerceValue, convValue, if_neg hs] <;>
      first
        | rfl
        | (cases h : pyIntParse s <;> simp [h])
        | (cases h : pyFloat s <;> simp [h])
        | (cases h : pyDateTimeParse s <;> simp [h])
        | (cases h : pyDateParse s <;> simp [h])
        | (cases h : pyTimeParse s <;> simp [h])

end MagSpec
